import Mathlib

/-!
Shallow embedding of the EFS ("easy file system") core, translated from the
Rust sources (src/layout.rs, src/bitmap.rs, src/efs.rs, src/vfs.rs).

The block device is modelled as a total map from block id to block bytes
(the core, per the spec, never probes the device's size).  The write-back
block cache (src/block_cache.rs) guarantees a single coherent image per
block id, so in this embedding reads and writes through the cache act
directly on the disk map.  Machine integers become Nat with explicit
mod-2^32 where the code casts; byte-typed views ([u32; 128] indirect
blocks, [u64; 64] bitmap blocks, 128-byte DiskInode records, 32-byte
DirEntry records) are little-endian codecs over the byte map, exactly as
repr(C) lays them out.  Code paths that panic in Rust (assert!, unwrap on
an exhausted allocator or iterator) return none.

The crate root (not under src/) fixes BLOCK_SZ; the spec fixes B = 512,
which all claims assume.
-/

/-- Block size in bytes. Modelled from the spec: BLOCK_SZ is defined in the
crate root, which is not under src/; the spec fixes B = 512. -/
def BLOCK_SZ : Nat := 512

/-- Maximum number of direct block pointers in a disk inode (layout.rs). -/
def INODE_DIRECT_COUNT : Nat := 28

/-- Maximum name length of a directory entry (layout.rs). -/
def NAME_LENGTH_LIMIT : Nat := 27

/-- Number of block ids in one indirect block: BLOCK_SZ / 4 (layout.rs). -/
def INODE_INDIRECT1_COUNT : Nat := BLOCK_SZ / 4

/-- Number of data blocks addressable through the double-indirect level
(layout.rs). -/
def INODE_INDIRECT2_COUNT : Nat := INODE_INDIRECT1_COUNT * INODE_INDIRECT1_COUNT

/-- Upper bound (exclusive) of the direct range (layout.rs). -/
def DIRECT_BOUND : Nat := INODE_DIRECT_COUNT

/-- Upper bound (exclusive) of the single-indirect range (layout.rs). -/
def INDIRECT1_BOUND : Nat := DIRECT_BOUND + INODE_INDIRECT1_COUNT

/-- Upper bound (exclusive) of the double-indirect range (layout.rs). -/
def INDIRECT2_BOUND : Nat := INDIRECT1_BOUND + INODE_INDIRECT2_COUNT

/-- Size of a serialized directory entry in bytes (layout.rs, DIRENT_SZ). -/
def DIRENT_SZ : Nat := 32

/-- Bytes of one disk block: byte offset to byte value. -/
def BlockData := Nat → Nat

/-- The block device contents: block id to block bytes. -/
def Disk := Nat → BlockData

/-- Write one byte of a block. -/
def setByte (b : BlockData) (off v : Nat) : BlockData :=
  fun i => if i = off then v else b i

/-- Replace one whole block of the disk. -/
def setBlock (d : Disk) (id : Nat) (b : BlockData) : Disk :=
  fun i => if i = id then b else d i

/-- Read a little-endian u32 that starts at byte offset off. -/
def readU32 (b : BlockData) (off : Nat) : Nat :=
  b off + 256 * b (off + 1) + 65536 * b (off + 2) + 16777216 * b (off + 3)

/-- Store a little-endian u32 at byte offset off. -/
def writeU32 (b : BlockData) (off v : Nat) : BlockData :=
  fun i =>
    if i = off then v % 256
    else if i = off + 1 then v / 256 % 256
    else if i = off + 2 then v / 65536 % 256
    else if i = off + 3 then v / 16777216 % 256
    else b i

/-- Read a little-endian u64 that starts at byte offset off. -/
def readU64 (b : BlockData) (off : Nat) : Nat :=
  readU32 b off + 4294967296 * readU32 b (off + 4)

/-- Store a little-endian u64 at byte offset off. -/
def writeU64 (b : BlockData) (off v : Nat) : BlockData :=
  writeU32 (writeU32 b off (v % 4294967296)) (off + 4) (v / 4294967296)

/-- The all-ones u64, u64::MAX. -/
def u64Max : Nat := 18446744073709551615

theorem setByte_eq (b : BlockData) (off v : Nat) : setByte b off v off = v := by
  simp [setByte]

theorem setByte_ne (b : BlockData) (off v i : Nat) (h : i ≠ off) :
    setByte b off v i = b i := by
  simp [setByte, h]

theorem setBlock_eq (d : Disk) (id : Nat) (b : BlockData) : setBlock d id b id = b := by
  simp [setBlock]

theorem setBlock_ne (d : Disk) (id : Nat) (b : BlockData) (i : Nat) (h : i ≠ id) :
    setBlock d id b i = d i := by
  simp [setBlock, h]

theorem writeU32_at_of_lt (b : BlockData) (off v i : Nat) (h : i < off) :
    writeU32 b off v i = b i := by
  simp only [writeU32]
  have h1 : i ≠ off := by omega
  have h2 : i ≠ off + 1 := by omega
  have h3 : i ≠ off + 2 := by omega
  have h4 : i ≠ off + 3 := by omega
  simp [h1, h2, h3, h4]

theorem writeU32_at_of_ge (b : BlockData) (off v i : Nat) (h : off + 4 ≤ i) :
    writeU32 b off v i = b i := by
  simp only [writeU32]
  have h1 : i ≠ off := by omega
  have h2 : i ≠ off + 1 := by omega
  have h3 : i ≠ off + 2 := by omega
  have h4 : i ≠ off + 3 := by omega
  simp [h1, h2, h3, h4]

theorem writeU32_frame (b : BlockData) (off v i : Nat) (h : i < off ∨ off + 4 ≤ i) :
    writeU32 b off v i = b i := by
  rcases h with h | h
  · exact writeU32_at_of_lt b off v i h
  · exact writeU32_at_of_ge b off v i h

theorem writeU32_at0 (b : BlockData) (off v : Nat) : writeU32 b off v off = v % 256 := by
  simp [writeU32]

theorem writeU32_at1 (b : BlockData) (off v : Nat) :
    writeU32 b off v (off + 1) = v / 256 % 256 := by
  have h1 : off + 1 ≠ off := by omega
  simp [writeU32, h1]

theorem writeU32_at2 (b : BlockData) (off v : Nat) :
    writeU32 b off v (off + 2) = v / 65536 % 256 := by
  have h1 : off + 2 ≠ off := by omega
  have h2 : off + 2 ≠ off + 1 := by omega
  simp [writeU32, h1, h2]

theorem writeU32_at3 (b : BlockData) (off v : Nat) :
    writeU32 b off v (off + 3) = v / 16777216 % 256 := by
  have h1 : off + 3 ≠ off := by omega
  have h2 : off + 3 ≠ off + 1 := by omega
  have h3 : off + 3 ≠ off + 2 := by omega
  simp [writeU32, h1, h2, h3]

theorem readU32_writeU32 (b : BlockData) (off v : Nat) :
    readU32 (writeU32 b off v) off = v % 4294967296 := by
  simp only [readU32, writeU32_at0, writeU32_at1, writeU32_at2, writeU32_at3]
  omega

theorem readU32_frame (b : BlockData) (off v off' : Nat)
    (h : off' + 4 ≤ off ∨ off + 4 ≤ off') :
    readU32 (writeU32 b off v) off' = readU32 b off' := by
  simp only [readU32]
  have e0 : writeU32 b off v off' = b off' := writeU32_frame b off v off' (by omega)
  have e1 : writeU32 b off v (off' + 1) = b (off' + 1) := writeU32_frame b off v _ (by omega)
  have e2 : writeU32 b off v (off' + 2) = b (off' + 2) := writeU32_frame b off v _ (by omega)
  have e3 : writeU32 b off v (off' + 3) = b (off' + 3) := writeU32_frame b off v _ (by omega)
  rw [e0, e1, e2, e3]

theorem readU32_lt (b : BlockData) (off : Nat) (h : ∀ i, b i < 256) :
    readU32 b off < 4294967296 := by
  simp only [readU32]
  have h0 := h off
  have h1 := h (off + 1)
  have h2 := h (off + 2)
  have h3 := h (off + 3)
  omega

theorem readU32_writeU32_of_lt (b : BlockData) (off v : Nat) (h : v < 4294967296) :
    readU32 (writeU32 b off v) off = v := by
  rw [readU32_writeU32, Nat.mod_eq_of_lt h]

theorem readU64_writeU64 (b : BlockData) (off v : Nat) (h : v < 18446744073709551616) :
    readU64 (writeU64 b off v) off = v := by
  simp only [readU64, writeU64]
  rw [readU32_frame _ _ _ _ (by omega), readU32_writeU32,
    readU32_writeU32]
  have hlo : v % 4294967296 < 4294967296 := Nat.mod_lt _ (by omega)
  have hhi : v / 4294967296 < 4294967296 := by omega
  rw [Nat.mod_eq_of_lt hlo, Nat.mod_eq_of_lt hhi]
  omega

theorem writeU64_frame (b : BlockData) (off v i : Nat) (h : i < off ∨ off + 8 ≤ i) :
    writeU64 b off v i = b i := by
  simp only [writeU64]
  rw [writeU32_frame _ _ _ _ (by omega), writeU32_frame _ _ _ _ (by omega)]

theorem readU64_frame (b : BlockData) (off v off' : Nat)
    (h : off' + 8 ≤ off ∨ off + 8 ≤ off') :
    readU64 (writeU64 b off v) off' = readU64 b off' := by
  simp only [readU64, writeU64]
  rw [readU32_frame _ _ _ _ (by omega), readU32_frame _ _ _ _ (by omega),
    readU32_frame _ _ _ _ (by omega), readU32_frame _ _ _ _ (by omega)]

/-- Inode type (layout.rs, DiskInodeType): File or Directory. -/
inductive DiskInodeType where
  | File : DiskInodeType
  | Directory : DiskInodeType
deriving DecidableEq

/-- In-memory view of a 128-byte on-disk inode record (layout.rs, DiskInode).
The direct array is modelled as a map from slot index to block id; only
slots below INODE_DIRECT_COUNT are meaningful. -/
structure DiskInode where
  size : Nat
  direct : Nat → Nat
  indirect1 : Nat
  indirect2 : Nat
  type_ : DiskInodeType

/-- Initialization of a disk inode (layout.rs, DiskInode::initialize). -/
def DiskInode.initInode (type_ : DiskInodeType) : DiskInode :=
  { size := 0, direct := (fun _ => 0), indirect1 := 0, indirect2 := 0, type_ := type_ }

/-- Whether the inode is a directory (layout.rs, DiskInode::is_dir). -/
def DiskInode.is_dir (ino : DiskInode) : Bool :=
  ino.type_ = DiskInodeType.Directory

/-- Number of data blocks needed for the given byte size
(layout.rs, DiskInode::_data_blocks). -/
def DiskInode.data_blocks_for (size : Nat) : Nat :=
  (size + BLOCK_SZ - 1) / BLOCK_SZ

/-- Number of data blocks at the inode's current size
(layout.rs, DiskInode::data_blocks). -/
def DiskInode.data_blocks (ino : DiskInode) : Nat :=
  DiskInode.data_blocks_for ino.size

/-- Number of blocks needed for the given byte size, index blocks included
(layout.rs, DiskInode::total_blocks). -/
def DiskInode.total_blocks (size : Nat) : Nat :=
  let data_blocks := DiskInode.data_blocks_for size
  let total := data_blocks
  let total := if data_blocks > INODE_DIRECT_COUNT then total + 1 else total
  if data_blocks > INDIRECT1_BOUND then
    total + 1 +
      (data_blocks - INDIRECT1_BOUND + INODE_INDIRECT1_COUNT - 1) / INODE_INDIRECT1_COUNT
  else total

/-- Additional blocks needed to grow to new_size
(layout.rs, DiskInode::blocks_num_needed); asserts new_size is at least the
current size, so the failure case returns none. -/
def DiskInode.blocks_num_needed (ino : DiskInode) (new_size : Nat) : Option Nat :=
  if new_size ≥ ino.size then
    some (DiskInode.total_blocks new_size - DiskInode.total_blocks ino.size)
  else none

/-- Physical block id of the inner_id-th logical data block
(layout.rs, DiskInode::get_block_id). -/
def DiskInode.get_block_id (d : Disk) (ino : DiskInode) (inner_id : Nat) : Nat :=
  if inner_id < INODE_DIRECT_COUNT then
    ino.direct inner_id
  else if inner_id < INDIRECT1_BOUND then
    readU32 (d ino.indirect1) (4 * (inner_id - INODE_DIRECT_COUNT))
  else
    let last := inner_id - INDIRECT1_BOUND
    let indirect1 := readU32 (d ino.indirect2) (4 * (last / INODE_INDIRECT1_COUNT))
    readU32 (d indirect1) (4 * (last % INODE_INDIRECT1_COUNT))

/-- Bytes of a block as a list: len bytes starting at byte offset off. -/
def blockSlice (b : BlockData) (off len : Nat) : List Nat :=
  (List.range len).map (fun j => b (off + j))

/-- Overwrite the bytes of buf starting at position pos with src, as
copy_from_slice does on the sub-slice buf[pos..pos + src.length]. -/
def listCopy (buf : List Nat) (pos : Nat) (src : List Nat) : List Nat :=
  buf.take pos ++ src ++ buf.drop (pos + src.length)

/-- Store the bytes of src into the block starting at byte offset off. -/
def writeBytes (b : BlockData) (off : Nat) : List Nat → BlockData
  | [] => b
  | v :: rest => writeBytes (setByte b off v) (off + 1) rest

/-- One read_at iteration per fuel step (layout.rs, DiskInode::read_at loop).
The loop advances start by at least one byte per iteration and breaks when
the current block's end reaches endv, so any fuel of at least endv - start
makes the fuel bound unreachable. -/
def DiskInode.read_at_loop (d : Disk) (ino : DiskInode) (endv : Nat) :
    Nat → Nat → Nat → Nat → List Nat → Nat × List Nat
  | 0, _, _, read_size, buf => (read_size, buf)
  | fuel + 1, start, start_block, read_size, buf =>
    let end_current_block := min ((start / BLOCK_SZ + 1) * BLOCK_SZ) endv
    let block_read_size := end_current_block - start
    let blk := DiskInode.get_block_id d ino start_block
    let buf' := listCopy buf read_size (blockSlice (d blk) (start % BLOCK_SZ) block_read_size)
    let read_size' := read_size + block_read_size
    if end_current_block = endv then (read_size', buf')
    else DiskInode.read_at_loop d ino endv fuel end_current_block (start_block + 1) read_size' buf'

/-- Read from the inode into buf (layout.rs, DiskInode::read_at).  Returns
the number of bytes read and the updated buffer; the prefix of buf up to
the returned count is replaced by file content, the rest is untouched. -/
def DiskInode.read_at (d : Disk) (ino : DiskInode) (offset : Nat) (buf : List Nat) :
    Nat × List Nat :=
  let start := offset
  let endv := min (offset + buf.length) ino.size
  if start ≥ endv then (0, buf)
  else DiskInode.read_at_loop d ino endv (endv - start) start (start / BLOCK_SZ) 0 buf

/-- One write_at iteration per fuel step (layout.rs, DiskInode::write_at
loop), threading the disk. -/
def DiskInode.write_at_loop (ino : DiskInode) (endv : Nat) (buf : List Nat) :
    Nat → Nat → Nat → Nat → Disk → Nat × Disk
  | 0, _, _, write_size, d => (write_size, d)
  | fuel + 1, start, start_block, write_size, d =>
    let end_current_block := min ((start / BLOCK_SZ + 1) * BLOCK_SZ) endv
    let block_write_size := end_current_block - start
    let blk := DiskInode.get_block_id d ino start_block
    let src := (buf.drop write_size).take block_write_size
    let d' := setBlock d blk (writeBytes (d blk) (start % BLOCK_SZ) src)
    let write_size' := write_size + block_write_size
    if end_current_block = endv then (write_size', d')
    else DiskInode.write_at_loop ino endv buf fuel end_current_block (start_block + 1) write_size' d'

/-- Write buf into the inode (layout.rs, DiskInode::write_at).  The size
must have been adjusted beforehand; offset beyond the size fails the
assertion, which the model returns as none.  Returns the number of bytes
written and the updated disk. -/
def DiskInode.write_at (d : Disk) (ino : DiskInode) (offset : Nat) (buf : List Nat) :
    Option (Nat × Disk) :=
  let start := offset
  let endv := min (offset + buf.length) ino.size
  if start ≤ endv then
    some (DiskInode.write_at_loop ino endv buf (endv - start) start (start / BLOCK_SZ) 0 d)
  else none

/-- Direct-slot fill loop of increase_size (layout.rs, lines 248-251); one
fuel step per while iteration, so the caller passes the exact iteration
count.  Consumes one new block per slot; none models the unwrap panic on
an exhausted iterator. -/
def fillDirectLoop : Nat → (Nat → Nat) → Nat → List Nat →
    Option ((Nat → Nat) × Nat × List Nat)
  | 0, direct, current, blocks => some (direct, current, blocks)
  | k + 1, direct, current, blocks =>
    match blocks with
    | [] => none
    | b :: rest => fillDirectLoop k (setByte direct current b) (current + 1) rest

/-- Indirect1-entry fill loop of increase_size (layout.rs, lines 265-272),
writing successive u32 entries of an index block image. -/
def fillIndirectLoop : Nat → BlockData → Nat → List Nat →
    Option (BlockData × Nat × List Nat)
  | 0, blk, current, blocks => some (blk, current, blocks)
  | k + 1, blk, current, blocks =>
    match blocks with
    | [] => none
    | b :: rest => fillIndirectLoop k (writeU32 blk (4 * current) b) (current + 1) rest

/-- Double-indirect fill loop of increase_size (layout.rs, lines 292-314):
walks positions (a0, b0) up to (a1, b1) in lexicographic order; when b0 is
0 a new second-level index block is consumed and recorded in the level-2
index image, then a data block is consumed and recorded in the second-level
index block on disk.  One fuel step per position, so the caller passes
128 * a1 + b1 - (128 * a0 + b0). -/
def fillIndirect2Loop (a1 b1 : Nat) : Nat → Nat → Nat → BlockData → Disk → List Nat →
    Option (BlockData × Disk × List Nat)
  | 0, _, _, ind2, d, blocks => some (ind2, d, blocks)
  | k + 1, a0, b0, ind2, d, blocks =>
    if (a0 < a1) ∨ (a0 = a1 ∧ b0 < b1) then
      let step : Option (BlockData × List Nat) :=
        if b0 = 0 then
          match blocks with
          | [] => none
          | b :: rest => some (writeU32 ind2 (4 * a0) b, rest)
        else some (ind2, blocks)
      match step with
      | none => none
      | some (ind2', blocks') =>
        let sub_id := readU32 ind2' (4 * a0)
        match blocks' with
        | [] => none
        | b :: rest =>
          let d' := setBlock d sub_id (writeU32 (d sub_id) (4 * b0) b)
          let b0' := b0 + 1
          if b0' = INODE_INDIRECT1_COUNT then
            fillIndirect2Loop a1 b1 k (a0 + 1) 0 ind2' d' rest
          else
            fillIndirect2Loop a1 b1 k a0 b0' ind2' d' rest
    else some (ind2, d, blocks)

/-- Grow the inode to new_size, consuming new_blocks in order
(layout.rs, DiskInode::increase_size).  Returns the updated inode and disk;
none models the unwrap panic when new_blocks runs out early. -/
def DiskInode.increase_size (d : Disk) (ino : DiskInode) (new_size : Nat)
    (new_blocks : List Nat) : Option (DiskInode × Disk) := do
  let current_blocks := ino.data_blocks
  let ino1 : DiskInode := { ino with size := new_size }
  let total_blocks := ino1.data_blocks
  -- fill direct slots
  let (direct, current, blocks) ←
    fillDirectLoop (min total_blocks INODE_DIRECT_COUNT - current_blocks)
      ino1.direct current_blocks new_blocks
  let ino2 : DiskInode := { ino1 with direct := direct }
  if total_blocks > INODE_DIRECT_COUNT then do
    -- allocate the indirect1 index block when first entering the level
    let (ino3, blocks) ←
      if current = INODE_DIRECT_COUNT then
        match blocks with
        | [] => none
        | b :: rest => some ({ ino2 with indirect1 := b }, rest)
      else some (ino2, blocks)
    let current := current - INODE_DIRECT_COUNT
    let total := total_blocks - INODE_DIRECT_COUNT
    -- fill indirect1 entries
    let (ind1blk, current, blocks) ←
      fillIndirectLoop (min total INODE_INDIRECT1_COUNT - current)
        (d ino3.indirect1) current blocks
    let d1 := setBlock d ino3.indirect1 ind1blk
    if total > INODE_INDIRECT1_COUNT then do
      -- allocate the indirect2 index block when first entering the level
      let (ino4, blocks) ←
        if current = INODE_INDIRECT1_COUNT then
          match blocks with
          | [] => none
          | b :: rest => some ({ ino3 with indirect2 := b }, rest)
        else some (ino3, blocks)
      let current := current - INODE_INDIRECT1_COUNT
      let total := total - INODE_INDIRECT1_COUNT
      let a0 := current / INODE_INDIRECT1_COUNT
      let b0 := current % INODE_INDIRECT1_COUNT
      let a1 := total / INODE_INDIRECT1_COUNT
      let b1 := total % INODE_INDIRECT1_COUNT
      let (ind2blk, d2, _) ←
        fillIndirect2Loop a1 b1 (INODE_INDIRECT1_COUNT * a1 + b1 - (INODE_INDIRECT1_COUNT * a0 + b0))
          a0 b0 (d1 ino4.indirect2) d1 blocks
      let d3 := setBlock d2 ino4.indirect2 ind2blk
      return (ino4, d3)
    else return (ino3, d1)
  else return (ino2, d)

/-- Modelled from the spec: DiskInode::clear_size is called from
Inode::clear (vfs.rs line 261) but its definition is not under src/.  Per
the spec it returns every data-area block id the inode refers to (direct
blocks, the indirect1 index, data referenced from indirect1, the indirect2
index, each second-level indirect1 index, each data block referenced
therein) and sets size to 0 and direct, indirect1, indirect2 to zero.  The
returned order follows the addressing scheme. -/
def DiskInode.clear_size (d : Disk) (ino : DiskInode) : List Nat × DiskInode :=
  let db := ino.data_blocks
  let directPart := (List.range (min db INODE_DIRECT_COUNT)).map ino.direct
  let ind1Part :=
    if db > INODE_DIRECT_COUNT then
      ino.indirect1 ::
        (List.range (min db INDIRECT1_BOUND - INODE_DIRECT_COUNT)).map
          (fun j => readU32 (d ino.indirect1) (4 * j))
    else []
  let subCount := (db - INDIRECT1_BOUND + INODE_INDIRECT1_COUNT - 1) / INODE_INDIRECT1_COUNT
  let ind2Part :=
    if db > INDIRECT1_BOUND then
      ino.indirect2 ::
        (List.range subCount).flatMap (fun a =>
          let sub := readU32 (d ino.indirect2) (4 * a)
          sub ::
            (List.range (min (db - INDIRECT1_BOUND - INODE_INDIRECT1_COUNT * a)
                INODE_INDIRECT1_COUNT)).map (fun b => readU32 (d sub) (4 * b)))
    else []
  (directPart ++ ind1Part ++ ind2Part,
    { ino with size := 0, direct := (fun _ => 0), indirect1 := 0, indirect2 := 0 })

/-- Number of bits in one bitmap block (bitmap.rs, BLOCK_BITS). -/
def BLOCK_BITS : Nat := BLOCK_SZ * 8

/-- Decompose a bit index into (block_pos, bits64_pos, inner_pos)
(bitmap.rs, decomposition). -/
def decomposition (bit : Nat) : Nat × Nat × Nat :=
  let block_pos := bit / BLOCK_BITS
  let bit := bit % BLOCK_BITS
  (block_pos, bit / 64, bit % 64)

/-- Number of trailing one bits of a u64 value (u64::trailing_ones), with
one fuel step per bit so 64 steps always suffice. -/
def trailingOnesAux : Nat → Nat → Nat
  | 0, _ => 0
  | fuel + 1, w => if w % 2 = 1 then trailingOnesAux fuel (w / 2) + 1 else 0

/-- Number of trailing one bits of a u64 value. -/
def trailingOnes (w : Nat) : Nat := trailingOnesAux 64 w

/-- Scan the 64 words of a bitmap block starting at word index j for the
first word that is not all ones (bitmap.rs, the iterator chain inside
Bitmap::alloc); returns the word index and the position of its lowest
clear bit. -/
def findFreeWord (b : BlockData) : Nat → Nat → Option (Nat × Nat)
  | _, 0 => none
  | j, k + 1 =>
    let w := readU64 b (8 * j)
    if w ≠ u64Max then some (j, trailingOnes w)
    else findFreeWord b (j + 1) k

/-- Bitmap descriptor (bitmap.rs, Bitmap). -/
structure Bitmap where
  start_block_id : Nat
  blocks : Nat

/-- Allocation attempt within a single bitmap block: find the lowest clear
bit, set it, and return its position within the block together with the
updated block image (the body of the modify closure in Bitmap::alloc). -/
def Bitmap.allocInBlock (b : BlockData) : Option (Nat × BlockData) :=
  match findFreeWord b 0 64 with
  | none => none
  | some (bits64_pos, inner_pos) =>
    let w := readU64 b (8 * bits64_pos)
    some (bits64_pos * 64 + inner_pos, writeU64 b (8 * bits64_pos) (w ||| (1 <<< inner_pos)))

/-- Block scan loop of Bitmap::alloc (bitmap.rs, lines 54-82). -/
def Bitmap.allocLoop (d : Disk) (start_block_id : Nat) : Nat → Nat → Option (Nat × Disk)
  | _, 0 => none
  | block_id, k + 1 =>
    let id := block_id + start_block_id
    match Bitmap.allocInBlock (d id) with
    | some (pos, b') => some (block_id * BLOCK_BITS + pos, setBlock d id b')
    | none => Bitmap.allocLoop d start_block_id (block_id + 1) k

/-- Allocate one clear bit (bitmap.rs, Bitmap::alloc): scans the bitmap's
blocks in order, returns the global bit index and the updated disk, or
none when every word of every block is all ones. -/
def Bitmap.alloc (bm : Bitmap) (d : Disk) : Option (Nat × Disk) :=
  Bitmap.allocLoop d bm.start_block_id 0 bm.blocks

/-- Free one bit (bitmap.rs, Bitmap::dealloc); the assertion that the bit
is currently set becomes the none case. -/
def Bitmap.dealloc (bm : Bitmap) (d : Disk) (bit : Nat) : Option Disk :=
  let parts := decomposition bit
  let block_pos := parts.1
  let bits64_pos := parts.2.1
  let inner_pos := parts.2.2
  let id := block_pos + bm.start_block_id
  let b := d id
  let w := readU64 b (8 * bits64_pos)
  if w &&& (1 <<< inner_pos) > 0 then
    some (setBlock d id (writeU64 b (8 * bits64_pos) (w - (1 <<< inner_pos))))
  else none

/-- Capacity in bits (bitmap.rs, Bitmap::maximum). -/
def Bitmap.maximum (bm : Bitmap) : Nat := bm.blocks * BLOCK_BITS

/-- Size in bytes of a DiskInode record: 4 (size) + 112 (direct) + 4 + 4 +
4 (type with repr(C) padding) = 128 when BLOCK_SZ = 512 (efs.rs comments
and the spec's on-disk format both fix 128). -/
def sizeOfDiskInode : Nat := 128

/-- Magic number of the filesystem (layout.rs, EFS_MAGIC). -/
def EFS_MAGIC : Nat := 0x3b800001

/-- Serialize the superblock fields at the start of block 0
(layout.rs, SuperBlock::initialize over the repr(C) layout). -/
def encodeSuperBlock (b : BlockData)
    (total_blocks inode_bitmap_blocks inode_area_blocks data_bitmap_blocks
      data_area_blocks : Nat) : BlockData :=
  writeU32 (writeU32 (writeU32 (writeU32 (writeU32 (writeU32 b 0 EFS_MAGIC)
    4 total_blocks) 8 inode_bitmap_blocks) 12 inode_area_blocks)
    16 data_bitmap_blocks) 20 data_area_blocks

/-- Decode a DiskInode record from 128 bytes starting at off. -/
def decodeInode (b : BlockData) (off : Nat) : DiskInode :=
  { size := readU32 b off
    direct := fun k => if k < INODE_DIRECT_COUNT then readU32 b (off + 4 + 4 * k) else 0
    indirect1 := readU32 b (off + 116)
    indirect2 := readU32 b (off + 120)
    type_ := if b (off + 124) = 1 then DiskInodeType.Directory else DiskInodeType.File }

/-- Serialize the direct array: k little-endian u32 slots starting at
off + 4. -/
def writeDirectArr (b : BlockData) (off : Nat) (f : Nat → Nat) : Nat → BlockData
  | 0 => b
  | k + 1 => writeU32 (writeDirectArr b off f k) (off + 4 + 4 * k) (f k)

/-- Serialize a DiskInode record into 128 bytes starting at off. -/
def encodeInode (b : BlockData) (off : Nat) (ino : DiskInode) : BlockData :=
  setByte
    (writeU32
      (writeU32 (writeDirectArr (writeU32 b off ino.size) off ino.direct INODE_DIRECT_COUNT)
        (off + 116) ino.indirect1)
      (off + 120) ino.indirect2)
    (off + 124) (if ino.type_ = DiskInodeType.Directory then 1 else 0)

/-- The filesystem manager (efs.rs, EasyFileSystem); the device itself is
passed separately as the disk map. -/
structure EasyFileSystem where
  inode_bitmap : Bitmap
  data_bitmap : Bitmap
  inode_area_start_block : Nat
  data_area_start_block : Nat

/-- Region size computation of EasyFileSystem::create (efs.rs lines 52-88):
returns (inode_area_blocks, data_bitmap_blocks, data_area_blocks,
data_area_start_block). -/
def EasyFileSystem.regions (total_blocks inode_bitmap_blocks : Nat) : Nat × Nat × Nat × Nat :=
  let inode_num := inode_bitmap_blocks * BLOCK_BITS
  let inode_area_blocks := (inode_num * sizeOfDiskInode + BLOCK_SZ - 1) / BLOCK_SZ
  let inode_total_blocks := inode_bitmap_blocks + inode_area_blocks
  let data_total_blocks := total_blocks - 1 - inode_total_blocks
  let data_bitmap_blocks := (data_total_blocks + 4096) / 4097
  let data_area_blocks := data_total_blocks - data_bitmap_blocks
  (inode_area_blocks, data_bitmap_blocks, data_area_blocks,
    1 + inode_total_blocks + data_bitmap_blocks)

/-- Position of an inode record: block id and offset in block
(efs.rs, EasyFileSystem::get_disk_inode_pos). -/
def EasyFileSystem.get_disk_inode_pos (efs : EasyFileSystem) (inode_id : Nat) : Nat × Nat :=
  let inodes_per_block := BLOCK_SZ / sizeOfDiskInode
  (efs.inode_area_start_block + inode_id / inodes_per_block,
    (inode_id % inodes_per_block) * sizeOfDiskInode)

/-- Allocate an inode bit (efs.rs, EasyFileSystem::alloc_inode); the
unwrap on an exhausted bitmap becomes the none case. -/
def EasyFileSystem.alloc_inode (efs : EasyFileSystem) (d : Disk) : Option (Nat × Disk) :=
  efs.inode_bitmap.alloc d

/-- Allocate a data block and return its absolute block id
(efs.rs, EasyFileSystem::alloc_data). -/
def EasyFileSystem.alloc_data (efs : EasyFileSystem) (d : Disk) : Option (Nat × Disk) :=
  (efs.data_bitmap.alloc d).map (fun p => (p.1 + efs.data_area_start_block, p.2))

/-- Free a data block: zero it, then clear its bitmap bit
(efs.rs, EasyFileSystem::dealloc_data). -/
def EasyFileSystem.dealloc_data (efs : EasyFileSystem) (d : Disk) (block_id : Nat) :
    Option Disk :=
  let d := setBlock d block_id (fun _ => 0)
  efs.data_bitmap.dealloc d (block_id - efs.data_area_start_block)

/-- Zero the first k blocks of the disk (the clearing loop of
EasyFileSystem::create, efs.rs lines 92-100). -/
def zeroBlocks (d : Disk) : Nat → Disk
  | 0 => d
  | k + 1 => setBlock (zeroBlocks d k) k (fun _ => 0)

/-- Format a volume (efs.rs, EasyFileSystem::create): compute the region
layout, zero every block, write the superblock, allocate inode 0 and
initialize it as the root directory. -/
def EasyFileSystem.create (d : Disk) (total_blocks inode_bitmap_blocks : Nat) :
    Option (EasyFileSystem × Disk) := do
  let inode_bitmap : Bitmap := ⟨1, inode_bitmap_blocks⟩
  let r := EasyFileSystem.regions total_blocks inode_bitmap_blocks
  let inode_area_blocks := r.1
  let data_bitmap_blocks := r.2.1
  let data_area_blocks := r.2.2.1
  let inode_total_blocks := inode_bitmap_blocks + inode_area_blocks
  let data_bitmap : Bitmap := ⟨1 + inode_total_blocks, data_bitmap_blocks⟩
  let efs : EasyFileSystem :=
    { inode_bitmap := inode_bitmap
      data_bitmap := data_bitmap
      inode_area_start_block := 1 + inode_bitmap_blocks
      data_area_start_block := r.2.2.2 }
  let d := zeroBlocks d total_blocks
  let d := setBlock d 0 (encodeSuperBlock (d 0) total_blocks inode_bitmap_blocks
    inode_area_blocks data_bitmap_blocks data_area_blocks)
  let p ← efs.alloc_inode d
  if p.1 = 0 then
    let pos := efs.get_disk_inode_pos 0
    let d := p.2
    let d := setBlock d pos.1
      (encodeInode (d pos.1) pos.2 (DiskInode.initInode DiskInodeType.Directory))
    return (efs, d)
  else none

/-- Little-endian u32 read out of a byte list at offset off (the
inode_number field of a DirEntry viewed through its 32 serialized bytes). -/
def listU32At (l : List Nat) (off : Nat) : Nat :=
  l.getD off 0 + 256 * l.getD (off + 1) 0 + 65536 * l.getD (off + 2) 0 +
    16777216 * l.getD (off + 3) 0

/-- Little-endian bytes of a u32 value. -/
def u32Bytes (v : Nat) : List Nat :=
  [v % 256, v / 256 % 256, v / 65536 % 256, v / 16777216 % 256]

/-- The 32 serialized bytes of DirEntry::new(name, inode_number)
(layout.rs, lines 446-453): the name copied into a zeroed 28-byte array
followed by the little-endian inode number.  A name longer than 28 bytes
makes copy_from_slice panic, the none case. -/
def DirEntry.bytesFor (name : List Nat) (inode_number : Nat) : Option (List Nat) :=
  if name.length ≤ NAME_LENGTH_LIMIT + 1 then
    some (name ++ List.replicate (NAME_LENGTH_LIMIT + 1 - name.length) 0 ++
      u32Bytes inode_number)
  else none

/-- The name of a serialized directory entry (layout.rs, DirEntry::name):
the bytes before the first NUL of the 28-byte name field.  When no NUL
exists within the field the Rust scan indexes past the array and panics,
the none case. -/
def DirEntry.nameOf (bytes : List Nat) : Option (List Nat) :=
  if (bytes.take (NAME_LENGTH_LIMIT + 1)).contains 0 then
    some ((bytes.take (NAME_LENGTH_LIMIT + 1)).takeWhile (fun x => x ≠ 0))
  else none

/-- A virtual filesystem inode handle (vfs.rs, Inode): position of the
backing inode record; the filesystem and device are passed to each
operation. -/
structure Inode where
  block_id : Nat
  block_offset : Nat

/-- Read the backing inode record (vfs.rs, Inode::read_disk_inode). -/
def Inode.read_disk_inode (d : Disk) (self : Inode) : DiskInode :=
  decodeInode (d self.block_id) self.block_offset

/-- Write the backing inode record back (the write-back at the end of
vfs.rs, Inode::modify_disk_inode).  In Rust the record is mutated in place
inside the cached block, so interleaved disk traffic to other blocks is
unaffected; the embedding decodes once, applies the closure and encodes
the result back, which agrees as long as the closure only touches other
blocks, as every caller does. -/
def Inode.write_disk_inode (d : Disk) (self : Inode) (ino : DiskInode) : Disk :=
  setBlock d self.block_id (encodeInode (d self.block_id) self.block_offset ino)

/-- Directory scan loop of Inode::find_inode_id (vfs.rs lines 92-100),
iterating entry indices i, i+1, ... for k more entries: read one 32-byte
entry at a time and compare its name.  Failed asserts (a short read) and a
name-field scan past the array become none; the inner option is the found
inode number. -/
def Inode.find_inode_id_loop (d : Disk) (dino : DiskInode) (name : List Nat) :
    Nat → Nat → Option (Option Nat)
  | _, 0 => some none
  | i, k + 1 =>
    let r := DiskInode.read_at d dino (DIRENT_SZ * i) (List.replicate DIRENT_SZ 0)
    if r.1 ≠ DIRENT_SZ then none
    else
      match DirEntry.nameOf r.2 with
      | none => none
      | some nm =>
        if nm = name then some (some (listU32At r.2 (NAME_LENGTH_LIMIT + 1)))
        else Inode.find_inode_id_loop d dino name (i + 1) k

/-- Look up a name in a directory inode (vfs.rs, Inode::find_inode_id);
asserts the inode is a directory. -/
def Inode.find_inode_id (d : Disk) (name : List Nat) (dino : DiskInode) :
    Option (Option Nat) :=
  if dino.is_dir then
    Inode.find_inode_id_loop d dino name 0 (dino.size / DIRENT_SZ)
  else none

/-- Look up a child inode by name (vfs.rs, Inode::find). -/
def Inode.find (efs : EasyFileSystem) (d : Disk) (self : Inode) (name : List Nat) :
    Option (Option Inode) := do
  let r ← Inode.find_inode_id d name (self.read_disk_inode d)
  match r with
  | none => return none
  | some inode_id =>
    let pos := efs.get_disk_inode_pos inode_id
    return some ⟨pos.1, pos.2⟩

/-- Allocate count data blocks in order (the push loop of vfs.rs,
Inode::increase_size lines 137-140). -/
def EasyFileSystem.allocDataN (efs : EasyFileSystem) (d : Disk) :
    Nat → Option (List Nat × Disk)
  | 0 => some ([], d)
  | k + 1 => do
    let p ← efs.alloc_data d
    let q ← EasyFileSystem.allocDataN efs p.2 k
    return (p.1 :: q.1, q.2)

/-- Grow a disk inode through the filesystem manager (vfs.rs,
Inode::increase_size): no-op when the new size is smaller, otherwise
allocate the needed blocks and hand them to DiskInode::increase_size. -/
def Inode.increase_size (efs : EasyFileSystem) (d : Disk) (new_size : Nat)
    (dino : DiskInode) : Option (DiskInode × Disk) :=
  if new_size < dino.size then some (dino, d)
  else do
    let blocks_needed ← dino.blocks_num_needed new_size
    let p ← efs.allocDataN d blocks_needed
    DiskInode.increase_size p.2 dino new_size p.1

/-- Create a child file under a directory inode (vfs.rs, Inode::create).
The outer option models panics (failed asserts, exhausted allocator); the
inner option is the Rust return value, none exactly when a same-named
entry already exists. -/
def Inode.create (efs : EasyFileSystem) (d : Disk) (self : Inode) (name : List Nat) :
    Option (Option (Inode × Disk)) := do
  let root_inode := self.read_disk_inode d
  if root_inode.is_dir then
    let dup ← Inode.find_inode_id d name root_inode
    match dup with
    | some _ => return none
    | none => do
      let p ← efs.alloc_inode d
      let new_inode_id := p.1
      let d := p.2
      let pos := efs.get_disk_inode_pos new_inode_id
      let d := setBlock d pos.1
        (encodeInode (d pos.1) pos.2 (DiskInode.initInode DiskInodeType.File))
      let root_inode := self.read_disk_inode d
      let file_count := root_inode.size / DIRENT_SZ
      let new_size := (file_count + 1) * DIRENT_SZ
      let q ← Inode.increase_size efs d new_size root_inode
      let root_inode := q.1
      let d := q.2
      let dirent ← DirEntry.bytesFor name new_inode_id
      let w ← DiskInode.write_at d root_inode (file_count * DIRENT_SZ) dirent
      let d := self.write_disk_inode w.2 root_inode
      return some (⟨pos.1, pos.2⟩, d)
  else none

/-- Directory listing loop (vfs.rs, Inode::ls lines 213-221). -/
def Inode.ls_loop (d : Disk) (dino : DiskInode) : Nat → Nat → Option (List (List Nat))
  | _, 0 => some []
  | i, k + 1 => do
    let r := DiskInode.read_at d dino (i * DIRENT_SZ) (List.replicate DIRENT_SZ 0)
    if r.1 ≠ DIRENT_SZ then none
    else do
      let nm ← DirEntry.nameOf r.2
      let rest ← Inode.ls_loop d dino (i + 1) k
      return nm :: rest

/-- List the names under a directory inode in entry order
(vfs.rs, Inode::ls). -/
def Inode.ls (d : Disk) (self : Inode) : Option (List (List Nat)) :=
  let dino := self.read_disk_inode d
  Inode.ls_loop d dino 0 (dino.size / DIRENT_SZ)

/-- Read from the inode (vfs.rs, Inode::read_at). -/
def Inode.read_at (d : Disk) (self : Inode) (offset : Nat) (buf : List Nat) :
    Nat × List Nat :=
  DiskInode.read_at d (self.read_disk_inode d) offset buf

/-- Write to the inode, growing it first to offset + buf.len() truncated
to u32 as the Rust cast does (vfs.rs, Inode::write_at). -/
def Inode.write_at (efs : EasyFileSystem) (d : Disk) (self : Inode) (offset : Nat)
    (buf : List Nat) : Option (Nat × Disk) := do
  let dino := self.read_disk_inode d
  let q ← Inode.increase_size efs d ((offset + buf.length) % 4294967296) dino
  let w ← DiskInode.write_at q.2 q.1 offset buf
  let d := self.write_disk_inode w.2 q.1
  return (w.1, d)

/-- Return every freed block to the data bitmap in order (the dealloc loop
of vfs.rs, Inode::clear lines 263-265). -/
def EasyFileSystem.deallocDataList (efs : EasyFileSystem) (d : Disk) :
    List Nat → Option Disk
  | [] => some d
  | b :: rest => do
    let d ← efs.dealloc_data d b
    EasyFileSystem.deallocDataList efs d rest

/-- Truncate the inode to zero bytes and free all its blocks
(vfs.rs, Inode::clear); the length assert on the freed list becomes the
none case. -/
def Inode.clear (efs : EasyFileSystem) (d : Disk) (self : Inode) : Option Disk := do
  let dino := self.read_disk_inode d
  let size := dino.size
  let r := DiskInode.clear_size d dino
  if r.1.length = DiskInode.total_blocks size then do
    let d ← efs.deallocDataList d r.1
    return self.write_disk_inode d r.2
  else none

/-- Handle to the root inode (efs.rs, EasyFileSystem::root_inode). -/
def EasyFileSystem.root_inode (efs : EasyFileSystem) : Inode :=
  let pos := efs.get_disk_inode_pos 0
  ⟨pos.1, pos.2⟩

theorem BLOCK_SZ_eq : BLOCK_SZ = 512 := rfl

theorem INODE_DIRECT_COUNT_eq : INODE_DIRECT_COUNT = 28 := rfl

theorem INODE_INDIRECT1_COUNT_eq : INODE_INDIRECT1_COUNT = 128 := rfl

theorem INDIRECT1_BOUND_eq : INDIRECT1_BOUND = 156 := rfl

theorem INDIRECT2_BOUND_eq : INDIRECT2_BOUND = 16540 := rfl

theorem listCopy_nil (buf : List Nat) (pos : Nat) : listCopy buf pos [] = buf := by
  simp [listCopy]

theorem listCopy_length (buf : List Nat) (pos : Nat) (src : List Nat)
    (h : pos + src.length ≤ buf.length) :
    (listCopy buf pos src).length = buf.length := by
  simp only [listCopy, List.length_append, List.length_take, List.length_drop]
  omega

theorem listCopy_listCopy (buf : List Nat) (pos : Nat) (s1 s2 : List Nat)
    (h : pos ≤ buf.length) :
    listCopy (listCopy buf pos s1) (pos + s1.length) s2 = listCopy buf pos (s1 ++ s2) := by
  simp only [listCopy]
  have hA : (buf.take pos ++ s1).length = pos + s1.length := by
    simp only [List.length_append, List.length_take]
    omega
  rw [List.take_left' hA]
  rw [← List.drop_drop, List.drop_left' hA, List.drop_drop]
  simp only [List.append_assoc, List.length_append]
  rw [show pos + s1.length + s2.length = pos + (s1.length + s2.length) from by omega]

theorem blockSlice_length (b : BlockData) (off len : Nat) :
    (blockSlice b off len).length = len := by
  simp [blockSlice]

theorem div_eq_of_lt_block (s j : Nat) (h : s % 512 + j < 512) :
    (s + j) / 512 = s / 512 := by
  omega

theorem mod_eq_of_lt_block (s j : Nat) (h : s % 512 + j < 512) :
    (s + j) % 512 = s % 512 + j := by
  omega

/-- Closed form of the read_at loop: starting inside the range, it reads
the remaining endv - start bytes, one per byte position, each taken from
the block addressed by get_block_id at the position's logical block. -/
theorem read_at_loop_spec (d : Disk) (ino : DiskInode) (endv : Nat) :
    ∀ (fuel start sb read_size : Nat) (buf : List Nat),
      sb = start / BLOCK_SZ →
      endv - start ≤ fuel → start < endv →
      read_size + (endv - start) ≤ buf.length →
      DiskInode.read_at_loop d ino endv fuel start sb read_size buf =
        (read_size + (endv - start),
          listCopy buf read_size ((List.range (endv - start)).map (fun j =>
            d (DiskInode.get_block_id d ino ((start + j) / BLOCK_SZ))
              ((start + j) % BLOCK_SZ)))) := by
  intro fuel
  induction fuel with
  | zero => intro start sb read_size buf hsb hfuel hlt _; omega
  | succ fuel ih =>
    intro start sb read_size buf hsb hfuel hlt hlen
    rw [DiskInode.read_at_loop]
    simp only [BLOCK_SZ_eq] at hsb ⊢
    by_cases hc : (start / 512 + 1) * 512 < endv
    · -- the chunk ends at the block boundary and the loop continues
      have hmin : min ((start / 512 + 1) * 512) endv = (start / 512 + 1) * 512 :=
        min_eq_left (by omega)
      have hne : ¬ ((start / 512 + 1) * 512 = endv) := by omega
      have hbs : (start / 512 + 1) * 512 - start ≤ 512 := by omega
      have ihx := ih ((start / 512 + 1) * 512) (sb + 1)
        (read_size + ((start / 512 + 1) * 512 - start))
        (listCopy buf read_size
          (blockSlice (d (DiskInode.get_block_id d ino sb)) (start % 512)
            ((start / 512 + 1) * 512 - start)))
        (by simp only [BLOCK_SZ_eq]; omega) (by omega) (by omega)
        (by rw [listCopy_length _ _ _ (by rw [blockSlice_length]; omega)]; omega)
      simp only [hmin, if_neg hne, BLOCK_SZ_eq] at ihx ⊢
      rw [ihx]
      have hslice : blockSlice (d (DiskInode.get_block_id d ino sb))
            (start % 512) ((start / 512 + 1) * 512 - start) =
          (List.range ((start / 512 + 1) * 512 - start)).map (fun j =>
            d (DiskInode.get_block_id d ino ((start + j) / 512)) ((start + j) % 512)) := by
        apply List.map_congr_left
        intro j hj
        simp only [List.mem_range] at hj
        rw [div_eq_of_lt_block start j (by omega), mod_eq_of_lt_block start j (by omega), hsb]
      refine congrArg₂ Prod.mk (by omega) ?_
      rw [show read_size + ((start / 512 + 1) * 512 - start) =
          read_size + (blockSlice (d (DiskInode.get_block_id d ino sb)) (start % 512)
            ((start / 512 + 1) * 512 - start)).length from by rw [blockSlice_length]]
      rw [listCopy_listCopy _ _ _ _ (by omega)]
      congr 1
      rw [hslice]
      have hr : endv - start =
          ((start / 512 + 1) * 512 - start) + (endv - (start / 512 + 1) * 512) := by omega
      rw [hr, List.range_add, List.map_append, List.map_map]
      congr 1
      apply List.map_congr_left
      intro j _
      simp only [Function.comp]
      congr 2 <;> omega
    · -- last chunk: the block end reaches endv and the loop breaks
      have hmin : min ((start / 512 + 1) * 512) endv = endv := min_eq_right (by omega)
      simp only [hmin, if_pos rfl]
      refine congrArg₂ Prod.mk rfl ?_
      congr 1
      apply List.map_congr_left
      intro j hj
      simp only [List.mem_range] at hj
      rw [div_eq_of_lt_block start j (by omega), mod_eq_of_lt_block start j (by omega), hsb]

/-- Closed form of DiskInode::read_at: the returned count is the length of
the intersection of the request with the file, and the buffer's prefix is
replaced by the addressed bytes while the rest is untouched. -/
theorem DiskInode.read_at_spec (d : Disk) (ino : DiskInode) (offset : Nat) (buf : List Nat) :
    DiskInode.read_at d ino offset buf =
      (min buf.length (ino.size - offset),
        listCopy buf 0 ((List.range (min buf.length (ino.size - offset))).map (fun j =>
          d (DiskInode.get_block_id d ino ((offset + j) / BLOCK_SZ))
            ((offset + j) % BLOCK_SZ)))) := by
  rw [DiskInode.read_at]
  by_cases hge : offset ≥ min (offset + buf.length) ino.size
  · have h0 : min buf.length (ino.size - offset) = 0 := by omega
    rw [if_pos hge, h0]
    simp [listCopy_nil]
  · rw [if_neg hge]
    have hend : min (offset + buf.length) ino.size - offset = min buf.length (ino.size - offset) := by
      omega
    rw [read_at_loop_spec d ino _ _ offset _ 0 buf rfl le_rfl (by omega) (by omega)]
    rw [hend]
    simp

theorem writeBytes_at : ∀ (src : List Nat) (off : Nat) (i : Nat) (b : BlockData),
    writeBytes b off src i =
      if off ≤ i ∧ i < off + src.length then src.getD (i - off) 0 else b i := by
  intro src
  induction src with
  | nil =>
    intro off i b
    rw [writeBytes]
    simp only [List.length_nil, Nat.add_zero]
    rw [if_neg (by omega)]
  | cons v rest ih =>
    intro off i b
    rw [writeBytes, ih]
    by_cases hi : i = off
    · subst hi
      rw [if_neg (by omega), if_pos (by simp only [List.length_cons]; omega)]
      rw [setByte_eq]
      simp
    · by_cases hr : off + 1 ≤ i ∧ i < off + 1 + rest.length
      · rw [if_pos hr, if_pos (by simp only [List.length_cons]; omega)]
        have hsucc : i - off = (i - (off + 1)) + 1 := by omega
        rw [hsucc, List.getD_cons_succ]
      · rw [if_neg hr, if_neg (by simp only [List.length_cons]; omega),
          setByte_ne _ _ _ _ hi]

theorem getD_drop_take (l : List Nat) (ws bs j : Nat) (hj : j < bs) :
    ((l.drop ws).take bs).getD j 0 = l.getD (ws + j) 0 := by
  rw [List.getD_eq_getElem?_getD, List.getD_eq_getElem?_getD]
  rw [List.getElem?_take, if_pos hj, List.getElem?_drop]

/-- The write_at loop moves exactly the remaining endv - start bytes,
whatever the disk contents. -/
theorem write_at_loop_fst (ino : DiskInode) (endv : Nat) (buf : List Nat) :
    ∀ (fuel start sb write_size : Nat) (d : Disk),
      sb = start / BLOCK_SZ → endv - start ≤ fuel → start < endv →
      (DiskInode.write_at_loop ino endv buf fuel start sb write_size d).1 =
        write_size + (endv - start) := by
  intro fuel
  induction fuel with
  | zero => intro start sb write_size d hsb hfuel hlt; omega
  | succ fuel ih =>
    intro start sb write_size d hsb hfuel hlt
    rw [DiskInode.write_at_loop]
    simp only [BLOCK_SZ_eq] at hsb ⊢
    by_cases hc : (start / 512 + 1) * 512 < endv
    · have hmin : min ((start / 512 + 1) * 512) endv = (start / 512 + 1) * 512 :=
        min_eq_left (by omega)
      have hne : ¬ ((start / 512 + 1) * 512 = endv) := by omega
      simp only [hmin, if_neg hne]
      rw [ih ((start / 512 + 1) * 512) (sb + 1) _ _ (by simp only [BLOCK_SZ_eq]; omega)
        (by omega) (by omega)]
      omega
    · have hmin : min ((start / 512 + 1) * 512) endv = endv := min_eq_right (by omega)
      simp only [hmin, eq_self_iff_true, if_true]

/-- Closed form of DiskInode::write_at on the returned count: none exactly
when offset exceeds the size (the failed assertion), otherwise the clamped
count min(buf.len, size - offset). -/
theorem DiskInode.write_at_fst (d : Disk) (ino : DiskInode) (offset : Nat) (buf : List Nat) :
    (DiskInode.write_at d ino offset buf).map Prod.fst =
      if offset ≤ ino.size then some (min buf.length (ino.size - offset)) else none := by
  rw [DiskInode.write_at]
  by_cases hle : offset ≤ min (offset + buf.length) ino.size
  · rw [if_pos hle, if_pos (by omega)]
    simp only [Option.map_some']
    by_cases hz : offset < min (offset + buf.length) ino.size
    · rw [write_at_loop_fst ino _ buf _ offset _ 0 d rfl le_rfl hz]
      simp only [Option.some.injEq]
      omega
    · have h0 : min (offset + buf.length) ino.size - offset = 0 := by omega
      simp only [h0]
      rw [show DiskInode.write_at_loop ino (min (offset + buf.length) ino.size) buf 0 offset
          (offset / BLOCK_SZ) 0 d = (0, d) from rfl]
      simp only [Option.some.injEq]
      omega
  · rw [if_neg hle, if_neg (by omega)]
    rfl

/-- Content and frame characterization of the write_at loop.  Relative to a
reference disk d0 whose block map over logical blocks N0..N1 is stable
under writes to its own data blocks (hstable) and injective (hinj), the
loop starting from any disk that agrees with d0 outside those data blocks
changes only the data blocks of the remaining range, and afterwards the
byte of logical position p carries buf's corresponding byte. -/
theorem write_at_loop_content (ino : DiskInode) (endv : Nat) (buf : List Nat)
    (d0 : Disk) (N0 N1 : Nat)
    (hstable : ∀ d' : Disk,
      (∀ i, (∀ n, N0 ≤ n → n ≤ N1 → i ≠ DiskInode.get_block_id d0 ino n) → d' i = d0 i) →
      ∀ m, N0 ≤ m → m ≤ N1 →
        DiskInode.get_block_id d' ino m = DiskInode.get_block_id d0 ino m)
    (hinj : ∀ m m', N0 ≤ m → m ≤ N1 → N0 ≤ m' → m' ≤ N1 → m ≠ m' →
      DiskInode.get_block_id d0 ino m ≠ DiskInode.get_block_id d0 ino m') :
    ∀ (fuel start sb write_size : Nat) (dcur : Disk),
      sb = start / BLOCK_SZ → endv - start ≤ fuel → start < endv →
      write_size + (endv - start) ≤ buf.length →
      N0 ≤ start / BLOCK_SZ → (endv - 1) / BLOCK_SZ ≤ N1 →
      (∀ i, (∀ n, N0 ≤ n → n ≤ N1 → i ≠ DiskInode.get_block_id d0 ino n) → dcur i = d0 i) →
      (∀ i, (∀ n, start / BLOCK_SZ ≤ n → n ≤ (endv - 1) / BLOCK_SZ →
          i ≠ DiskInode.get_block_id d0 ino n) →
        (DiskInode.write_at_loop ino endv buf fuel start sb write_size dcur).2 i = dcur i) ∧
      (∀ j, j < endv - start →
        (DiskInode.write_at_loop ino endv buf fuel start sb write_size dcur).2
            (DiskInode.get_block_id d0 ino ((start + j) / BLOCK_SZ))
            ((start + j) % BLOCK_SZ) =
          buf.getD (write_size + j) 0) := by
  intro fuel
  induction fuel with
  | zero => intro start sb write_size dcur hsb hfuel hlt; omega
  | succ fuel ih =>
    intro start sb write_size dcur hsb hfuel hlt hlen hN0 hN1 hagree
    subst hsb
    rw [DiskInode.write_at_loop]
    simp only [BLOCK_SZ_eq] at hN0 hN1 hagree ⊢
    have hsbN1 : start / 512 ≤ (endv - 1) / 512 := Nat.div_le_div_right (by omega)
    have hgbi_cur : DiskInode.get_block_id dcur ino (start / 512) =
        DiskInode.get_block_id d0 ino (start / 512) :=
      hstable dcur hagree (start / 512) hN0 (le_trans hsbN1 hN1)
    by_cases hc : (start / 512 + 1) * 512 < endv
    · -- the chunk ends at the block boundary and the loop continues
      have hmin : min ((start / 512 + 1) * 512) endv = (start / 512 + 1) * 512 :=
        min_eq_left (by omega)
      have hne : ¬ ((start / 512 + 1) * 512 = endv) := by omega
      simp only [hmin, if_neg hne, hgbi_cur]
      set B := DiskInode.get_block_id d0 ino (start / 512) with hB
      set src := (buf.drop write_size).take ((start / 512 + 1) * 512 - start) with hsrc
      set dstep := setBlock dcur B (writeBytes (dcur B) (start % 512) src) with hdstep
      have hsrclen : src.length = (start / 512 + 1) * 512 - start := by
        rw [hsrc, List.length_take, List.length_drop]
        omega
      have hagree' : ∀ i, (∀ n, N0 ≤ n → n ≤ N1 →
          i ≠ DiskInode.get_block_id d0 ino n) → dstep i = d0 i := by
        intro i hi
        rw [hdstep, setBlock_ne _ _ _ _ (hi (start / 512) hN0 (le_trans hsbN1 hN1))]
        exact hagree i hi
      have ihx := ih ((start / 512 + 1) * 512) ((start / 512 + 1) * 512 / 512)
        (write_size + ((start / 512 + 1) * 512 - start)) dstep
        rfl (by omega) (by omega) (by omega)
        (by simp only [BLOCK_SZ_eq]; omega) (by simp only [BLOCK_SZ_eq]; omega) hagree'
      obtain ⟨ihf, ihc⟩ := ihx
      simp only [BLOCK_SZ_eq] at ihf ihc
      have hdiv512 : (start / 512 + 1) * 512 / 512 = start / 512 + 1 := by omega
      rw [hdiv512] at ihf ihc
      constructor
      · -- frame
        intro i hi
        rw [ihf i (by
          intro n hn1 hn2
          exact hi n (by omega) (by omega))]
        rw [hdstep, setBlock_ne _ _ _ _ (hi (start / 512) le_rfl hsbN1)]
      · -- content
        intro j hj
        by_cases hjb : j < (start / 512 + 1) * 512 - start
        · -- the byte lands in this chunk's block
          have hdivj : (start + j) / 512 = start / 512 := div_eq_of_lt_block _ _ (by omega)
          have hmodj : (start + j) % 512 = start % 512 + j := mod_eq_of_lt_block _ _ (by omega)
          rw [hdivj, hmodj]
          rw [ihf B (by
            intro n hn1 hn2 hBeq
            have hne2 : start / 512 ≠ n := by omega
            exact hinj (start / 512) n hN0 (le_trans hsbN1 hN1) (by omega) (by omega)
              hne2 hBeq)]
          rw [hdstep, setBlock_eq]
          rw [writeBytes_at, if_pos (by rw [hsrclen]; omega)]
          rw [show start % 512 + j - start % 512 = j from by omega]
          rw [hsrc, getD_drop_take _ _ _ _ (by omega)]
        · -- the byte lands in a later block; use the recursive call
          have hx := ihc (j - ((start / 512 + 1) * 512 - start)) (by omega)
          rw [show (start / 512 + 1) * 512 + (j - ((start / 512 + 1) * 512 - start)) =
              start + j from by omega] at hx
          rw [show write_size + ((start / 512 + 1) * 512 - start) +
              (j - ((start / 512 + 1) * 512 - start)) = write_size + j from by omega] at hx
          exact hx
    · -- last chunk: the loop breaks after this block
      have hmin : min ((start / 512 + 1) * 512) endv = endv := min_eq_right (by omega)
      simp only [hmin, eq_self_iff_true, if_true, hgbi_cur]
      set B := DiskInode.get_block_id d0 ino (start / 512) with hB
      set src := (buf.drop write_size).take (endv - start) with hsrc
      have hsrclen : src.length = endv - start := by
        rw [hsrc, List.length_take, List.length_drop]
        omega
      constructor
      · intro i hi
        exact setBlock_ne _ _ _ _ (hi (start / 512) le_rfl hsbN1)
      · intro j hj
        have hdivj : (start + j) / 512 = start / 512 := div_eq_of_lt_block _ _ (by omega)
        have hmodj : (start + j) % 512 = start % 512 + j := mod_eq_of_lt_block _ _ (by omega)
        rw [hdivj, hmodj, setBlock_eq]
        rw [writeBytes_at, if_pos (by rw [hsrclen]; omega)]
        rw [show start % 512 + j - start % 512 = j from by omega]
        rw [hsrc, getD_drop_take _ _ _ _ (by omega)]

theorem read_at_fst (d : Disk) (ino : DiskInode) (offset : Nat) (buf : List Nat) :
    (DiskInode.read_at d ino offset buf).1 = min buf.length (ino.size - offset) := by
  rw [DiskInode.read_at_spec]

theorem read_at_snd (d : Disk) (ino : DiskInode) (offset : Nat) (buf : List Nat) :
    (DiskInode.read_at d ino offset buf).2 =
      listCopy buf 0 ((List.range (min buf.length (ino.size - offset))).map (fun j =>
        d (DiskInode.get_block_id d ino ((offset + j) / BLOCK_SZ))
          ((offset + j) % BLOCK_SZ))) := by
  rw [DiskInode.read_at_spec]

/-- C4: for every logical data-block index n with n < data_blocks(),
get_block_id(n) returns direct[n] when n < 28; the entry indirect1[n - 28]
when 28 <= n < 28 + B/4; and otherwise the entry of the second-level index
block found at indirect2[(n - 28 - B/4) / (B/4)], at index
(n - 28 - B/4) mod (B/4). -/
theorem C4_get_block_id_addressing (d : Disk) (ino : DiskInode) (n : Nat)
    (h : n < ino.data_blocks) :
    DiskInode.get_block_id d ino n =
      if n < 28 then ino.direct n
      else if n < 28 + BLOCK_SZ / 4 then readU32 (d ino.indirect1) (4 * (n - 28))
      else
        readU32
          (d (readU32 (d ino.indirect2) (4 * ((n - 28 - BLOCK_SZ / 4) / (BLOCK_SZ / 4)))))
          (4 * ((n - 28 - BLOCK_SZ / 4) % (BLOCK_SZ / 4))) := by
  rw [DiskInode.get_block_id]
  simp only [INODE_DIRECT_COUNT_eq, INDIRECT1_BOUND_eq, INODE_INDIRECT1_COUNT_eq, BLOCK_SZ_eq]
  norm_num
  by_cases h1 : n < 28
  · rw [if_pos h1, if_pos h1]
  · rw [if_neg h1, if_neg h1]
    by_cases h2 : n < 156
    · rw [if_pos h2, if_pos h2]
    · rw [if_neg h2, if_neg h2]
      rw [show n - 28 - 128 = n - 156 from by omega]

/-- C4 witness: a concrete inode with one data block resolves block 0
through the direct array. -/
theorem C4_get_block_id_addressing_witness :
    0 < DiskInode.data_blocks (DiskInode.mk 1 (fun _ => 7) 0 0 DiskInodeType.File) ∧
      DiskInode.get_block_id (fun _ => fun _ => 0)
          (DiskInode.mk 1 (fun _ => 7) 0 0 DiskInodeType.File) 0 =
        if 0 < 28 then (DiskInode.mk 1 (fun _ => 7) 0 0 DiskInodeType.File).direct 0
        else if 0 < 28 + BLOCK_SZ / 4 then
          readU32 ((fun _ => fun _ => 0 : Disk)
            (DiskInode.mk 1 (fun _ => 7) 0 0 DiskInodeType.File).indirect1) (4 * (0 - 28))
        else
          readU32
            ((fun _ => fun _ => 0 : Disk)
              (readU32 ((fun _ => fun _ => 0 : Disk)
                  (DiskInode.mk 1 (fun _ => 7) 0 0 DiskInodeType.File).indirect2)
                (4 * ((0 - 28 - BLOCK_SZ / 4) / (BLOCK_SZ / 4)))))
            (4 * ((0 - 28 - BLOCK_SZ / 4) % (BLOCK_SZ / 4))) :=
  ⟨by decide,
    C4_get_block_id_addressing (fun _ => fun _ => 0)
      (DiskInode.mk 1 (fun _ => 7) 0 0 DiskInodeType.File) 0 (by decide)⟩

/-- C6: read_at and write_at clamp the end of the operation to size and
return min(buf.len, size - offset) when offset <= size; read_at returns 0
for offset >= size; write_at with offset > size fails its assertion. -/
theorem C6_read_write_clamp (d : Disk) (ino : DiskInode) (offset : Nat)
    (buf wbuf : List Nat) :
    (offset ≤ ino.size →
      (DiskInode.read_at d ino offset buf).1 = min buf.length (ino.size - offset) ∧
      (DiskInode.write_at d ino offset wbuf).map Prod.fst =
        some (min wbuf.length (ino.size - offset))) ∧
    (ino.size ≤ offset → (DiskInode.read_at d ino offset buf).1 = 0) ∧
    (ino.size < offset → DiskInode.write_at d ino offset wbuf = none) := by
  refine ⟨fun hle => ⟨read_at_fst d ino offset buf, ?_⟩, fun hge => ?_, fun hgt => ?_⟩
  · rw [DiskInode.write_at_fst, if_pos hle]
  · rw [read_at_fst]
    omega
  · rw [DiskInode.write_at]
    rw [if_neg (by omega)]

/-- C6 witness: a concrete size-1 inode, read at offset 0, write at
offset 2. -/
theorem C6_read_write_clamp_witness :
    ((0 : Nat) ≤ (DiskInode.mk 1 (fun _ => 0) 0 0 DiskInodeType.File).size ∧
      (DiskInode.read_at (fun _ => fun _ => 0)
          (DiskInode.mk 1 (fun _ => 0) 0 0 DiskInodeType.File) 0 [5]).1 =
        min ([5] : List Nat).length
          ((DiskInode.mk 1 (fun _ => 0) 0 0 DiskInodeType.File).size - 0)) ∧
    ((DiskInode.mk 1 (fun _ => 0) 0 0 DiskInodeType.File).size < 2 ∧
      DiskInode.write_at (fun _ => fun _ => 0)
        (DiskInode.mk 1 (fun _ => 0) 0 0 DiskInodeType.File) 2 [5] = none) := by
  refine ⟨⟨by decide, ?_⟩, by decide, ?_⟩
  · exact ((C6_read_write_clamp (fun _ => fun _ => 0)
      (DiskInode.mk 1 (fun _ => 0) 0 0 DiskInodeType.File) 0 [5] [5]).1 (by decide)).1
  · exact (C6_read_write_clamp (fun _ => fun _ => 0)
      (DiskInode.mk 1 (fun _ => 0) 0 0 DiskInodeType.File) 2 [5] [5]).2.2 (by decide)

/-- C10: read_at writes only the returned prefix of the buffer: the bytes
from the returned count onward are unchanged, and the buffer length is
preserved. -/
theorem C10_read_at_frame (d : Disk) (ino : DiskInode) (offset : Nat) (buf : List Nat) :
    ((DiskInode.read_at d ino offset buf).2).drop (DiskInode.read_at d ino offset buf).1 =
      buf.drop (DiskInode.read_at d ino offset buf).1 ∧
    ((DiskInode.read_at d ino offset buf).2).length = buf.length := by
  rw [read_at_fst, read_at_snd]
  have hlen : ((List.range (min buf.length (ino.size - offset))).map (fun j =>
      d (DiskInode.get_block_id d ino ((offset + j) / BLOCK_SZ))
        ((offset + j) % BLOCK_SZ))).length = min buf.length (ino.size - offset) := by
    rw [List.length_map, List.length_range]
  constructor
  · simp only [listCopy, List.take_zero, List.nil_append, Nat.zero_add]
    rw [List.drop_left' hlen, hlen]
  · rw [listCopy_length _ _ _ (by rw [hlen]; omega)]

/-- C8 counterexample: formatting a 4096-block volume with one
inode-bitmap block yields 3069 data-area blocks, not 3070 as the claim
states (data_total = 4096 - 1 - 1 - 1024 = 3070 and one block goes to the
data bitmap, leaving 3069). -/
theorem C8_regions_counterexample :
    ¬ ((EasyFileSystem.regions 4096 1).2.2.1 = 3070) := by decide

/-- C8 (amended): formatting a 4096-block volume with
inode_bitmap_blocks = 1 yields inode_area_blocks = 1024,
data_bitmap_blocks = 1, data_area_blocks = 3069, and a data-area start
block of 1 + 1 + 1024 + 1 = 1027. -/
theorem C8_regions_amended :
    EasyFileSystem.regions 4096 1 = (1024, 1, 3069, 1027) := by decide

theorem sum_subparts (k t : Nat) (hk : (t + 127) / 128 = k) (ht : 0 < t) :
    ((List.range k).map (fun a => min (t - 128 * a) 128 + 1)).sum = k + t := by
  induction k with
  | zero => omega
  | succ k ihk =>
    rw [List.range_succ, List.map_append, List.sum_append]
    by_cases hbig : 128 * (k + 1) < t
    · rw [ihk (by omega)]
      simp only [List.map_cons, List.map_nil, List.sum_cons, List.sum_nil]
      have hm : min (t - 128 * k) 128 = 128 := by omega
      omega
    · -- final level: all of range k contributes full levels, level k is partial
      have hfull : ∀ a ∈ List.range k, (fun a => min (t - 128 * a) 128 + 1) a =
          (fun _ => 129) a := by
        intro a ha
        simp only [List.mem_range] at ha
        have hm : min (t - 128 * a) 128 = 128 := by omega
        simp [hm]
      rw [List.map_congr_left hfull, List.map_const', List.sum_replicate, smul_eq_mul,
        List.length_range]
      simp only [List.map_cons, List.map_nil, List.sum_cons, List.sum_nil]
      have hm : min (t - 128 * k) 128 = t - 128 * k := by omega
      omega

theorem clear_size_length (d : Disk) (ino : DiskInode) :
    (DiskInode.clear_size d ino).1.length = DiskInode.total_blocks ino.size := by
  rw [DiskInode.clear_size, DiskInode.total_blocks]
  simp only [INODE_DIRECT_COUNT_eq, INDIRECT1_BOUND_eq, INODE_INDIRECT1_COUNT_eq,
    DiskInode.data_blocks]
  set db := DiskInode.data_blocks_for ino.size with hdb
  simp only [List.length_append, List.length_map, List.length_range]
  by_cases h1 : db > 28
  · by_cases h2 : db > 156
    · rw [if_pos h1, if_pos h2, if_pos h1, if_pos h2]
      simp only [List.length_flatMap, Function.comp_def, List.length_cons, List.length_map,
        List.length_range]
      rw [sum_subparts ((db - 156 + 128 - 1) / 128) (db - 156) (by omega) (by omega)]
      omega
    · rw [if_pos h1, if_neg h2, if_pos h1, if_neg h2]
      simp only [List.length_cons, List.length_map, List.length_range, List.length_nil]
      omega
  · rw [if_neg h1, if_neg (by omega), if_neg h1, if_neg (by omega)]
    simp only [List.length_nil]
    omega

/-- C5: clear_size returns every data-area block id the inode refers to
(all addressed data blocks, the indirect1 index when present, the
indirect2 index and every second-level index when present), the returned
list has length exactly total_blocks(old size), and the resulting inode
has size 0 and zeroed direct, indirect1 and indirect2. -/
theorem C5_clear_size_complete (d : Disk) (ino : DiskInode) :
    (DiskInode.clear_size d ino).1.length = DiskInode.total_blocks ino.size ∧
    (∀ n, n < ino.data_blocks →
      DiskInode.get_block_id d ino n ∈ (DiskInode.clear_size d ino).1) ∧
    (ino.data_blocks > INODE_DIRECT_COUNT →
      ino.indirect1 ∈ (DiskInode.clear_size d ino).1) ∧
    (ino.data_blocks > INDIRECT1_BOUND →
      ino.indirect2 ∈ (DiskInode.clear_size d ino).1 ∧
      ∀ a, a < (ino.data_blocks - INDIRECT1_BOUND + INODE_INDIRECT1_COUNT - 1) /
          INODE_INDIRECT1_COUNT →
        readU32 (d ino.indirect2) (4 * a) ∈ (DiskInode.clear_size d ino).1) ∧
    (DiskInode.clear_size d ino).2.size = 0 ∧
    (∀ k, (DiskInode.clear_size d ino).2.direct k = 0) ∧
    (DiskInode.clear_size d ino).2.indirect1 = 0 ∧
    (DiskInode.clear_size d ino).2.indirect2 = 0 := by
  refine ⟨clear_size_length d ino, ?_, ?_, ?_, rfl, fun k => rfl, rfl, rfl⟩
  · -- every addressed data block appears in the returned list
    intro n hn
    rw [DiskInode.clear_size, DiskInode.get_block_id]
    simp only [INODE_DIRECT_COUNT_eq, INDIRECT1_BOUND_eq, INODE_INDIRECT1_COUNT_eq,
      DiskInode.data_blocks] at hn ⊢
    set db := DiskInode.data_blocks_for ino.size with hdb
    by_cases h1 : n < 28
    · rw [if_pos h1]
      refine List.mem_append_left _ (List.mem_append_left _ ?_)
      exact List.mem_map.mpr ⟨n, List.mem_range.mpr (by omega), rfl⟩
    · rw [if_neg h1]
      by_cases h2 : n < 156
      · rw [if_pos h2]
        refine List.mem_append_left _ (List.mem_append_right _ ?_)
        rw [if_pos (show db > 28 from by omega)]
        refine List.mem_cons_of_mem _ ?_
        exact List.mem_map.mpr ⟨n - 28, List.mem_range.mpr (by omega), rfl⟩
      · rw [if_neg h2]
        refine List.mem_append_right _ ?_
        rw [if_pos (show db > 156 from by omega)]
        refine List.mem_cons_of_mem _ ?_
        refine List.mem_flatMap.mpr ⟨(n - 156) / 128, List.mem_range.mpr (by omega), ?_⟩
        refine List.mem_cons_of_mem _ ?_
        exact List.mem_map.mpr ⟨(n - 156) % 128, List.mem_range.mpr (by omega), rfl⟩
  · -- the indirect1 index appears when the level is used
    intro h1
    rw [DiskInode.clear_size]
    simp only [INODE_DIRECT_COUNT_eq, INDIRECT1_BOUND_eq, INODE_INDIRECT1_COUNT_eq,
      DiskInode.data_blocks] at h1 ⊢
    refine List.mem_append_left _ (List.mem_append_right _ ?_)
    rw [if_pos h1]
    exact List.mem_cons_self _ _
  · -- the indirect2 index and every second-level index appear when used
    intro h2
    rw [DiskInode.clear_size]
    simp only [INODE_DIRECT_COUNT_eq, INDIRECT1_BOUND_eq, INODE_INDIRECT1_COUNT_eq,
      DiskInode.data_blocks] at h2 ⊢
    constructor
    · refine List.mem_append_right _ ?_
      rw [if_pos h2]
      exact List.mem_cons_self _ _
    · intro a ha
      refine List.mem_append_right _ ?_
      rw [if_pos h2]
      refine List.mem_cons_of_mem _ ?_
      refine List.mem_flatMap.mpr ⟨a, List.mem_range.mpr ha, ?_⟩
      exact List.mem_cons_self _ _

/-- C5 witness: a concrete inode reaching into the double-indirect range
(157 data blocks) on the all-zero disk. -/
theorem C5_clear_size_complete_witness :
    (0 < DiskInode.data_blocks (DiskInode.mk 80384 (fun _ => 0) 0 0 DiskInodeType.File) ∧
      DiskInode.get_block_id (fun _ => fun _ => 0)
          (DiskInode.mk 80384 (fun _ => 0) 0 0 DiskInodeType.File) 0 ∈
        (DiskInode.clear_size (fun _ => fun _ => 0)
          (DiskInode.mk 80384 (fun _ => 0) 0 0 DiskInodeType.File)).1) ∧
    (DiskInode.mk 80384 (fun _ => 0) 0 0 DiskInodeType.File).data_blocks >
        INODE_DIRECT_COUNT ∧
    (DiskInode.mk 80384 (fun _ => 0) 0 0 DiskInodeType.File).indirect1 ∈
      (DiskInode.clear_size (fun _ => fun _ => 0)
        (DiskInode.mk 80384 (fun _ => 0) 0 0 DiskInodeType.File)).1 ∧
    (DiskInode.mk 80384 (fun _ => 0) 0 0 DiskInodeType.File).data_blocks >
        INDIRECT1_BOUND ∧
    (DiskInode.mk 80384 (fun _ => 0) 0 0 DiskInodeType.File).indirect2 ∈
      (DiskInode.clear_size (fun _ => fun _ => 0)
        (DiskInode.mk 80384 (fun _ => 0) 0 0 DiskInodeType.File)).1 ∧
    (DiskInode.clear_size (fun _ => fun _ => 0)
      (DiskInode.mk 80384 (fun _ => 0) 0 0 DiskInodeType.File)).2.size = 0 := by
  have h := C5_clear_size_complete (fun _ => fun _ => 0)
    (DiskInode.mk 80384 (fun _ => 0) 0 0 DiskInodeType.File)
  exact ⟨⟨by decide, h.2.1 0 (by decide)⟩, by decide, h.2.2.1 (by decide), by decide,
    (h.2.2.2.1 (by decide)).1, h.2.2.2.2.1⟩

theorem getD_drop (l : List Nat) (k i : Nat) :
    (l.drop k).getD i 0 = l.getD (k + i) 0 := by
  rw [List.getD_eq_getElem?_getD, List.getD_eq_getElem?_getD, List.getElem?_drop]

theorem getD_lt (l : List Nat) (i : Nat) (h : i < l.length) :
    l.getD i 0 = l[i] := by
  rw [List.getD_eq_getElem?_getD, List.getElem?_eq_getElem h]
  rfl

/-- The direct-fill loop writes blocks into consecutive direct slots
starting at the current count and consumes exactly its iteration count. -/
theorem fillDirectLoop_spec : ∀ (k : Nat) (direct : Nat → Nat) (current : Nat)
    (blocks : List Nat), k ≤ blocks.length →
    ∃ direct', fillDirectLoop k direct current blocks =
        some (direct', current + k, blocks.drop k) ∧
      ∀ i, direct' i =
        if current ≤ i ∧ i < current + k then blocks.getD (i - current) 0 else direct i := by
  intro k
  induction k with
  | zero =>
    intro direct current blocks _
    refine ⟨direct, rfl, fun i => ?_⟩
    rw [if_neg (by omega)]
  | succ k ih =>
    intro direct current blocks hk
    match blocks with
    | [] => simp at hk
    | b :: rest =>
      obtain ⟨direct', heq, hval⟩ := ih (setByte direct current b) (current + 1) rest
        (by simp at hk ⊢; omega)
      refine ⟨direct', ?_, fun i => ?_⟩
      · rw [fillDirectLoop, heq]
        refine congrArg _ (congrArg₂ Prod.mk rfl (congrArg₂ Prod.mk (by omega) rfl))
      · rw [hval i]
        by_cases h1 : current + 1 ≤ i ∧ i < current + 1 + k
        · rw [if_pos h1, if_pos (by omega)]
          rw [show i - current = i - (current + 1) + 1 from by omega, List.getD_cons_succ]
        · rw [if_neg h1]
          by_cases h2 : i = current
          · subst h2
            rw [if_pos (by omega), setByte_eq, Nat.sub_self, List.getD_cons_zero]
          · rw [if_neg (by omega), setByte_ne _ _ _ _ h2]

/-- The indirect-entry fill loop writes blocks into consecutive u32 slots
of the index block image starting at the current count, and leaves all
other bytes of the image alone. -/
theorem fillIndirectLoop_spec : ∀ (k : Nat) (blk : BlockData) (current : Nat)
    (blocks : List Nat), k ≤ blocks.length →
    ∃ blk', fillIndirectLoop k blk current blocks =
        some (blk', current + k, blocks.drop k) ∧
      (∀ j, current ≤ j → j < current + k →
        readU32 blk' (4 * j) = blocks.getD (j - current) 0 % 4294967296) ∧
      (∀ i, i < 4 * current ∨ 4 * (current + k) ≤ i → blk' i = blk i) := by
  intro k
  induction k with
  | zero =>
    intro blk current blocks _
    exact ⟨blk, rfl, fun j h1 h2 => by omega, fun i _ => rfl⟩
  | succ k ih =>
    intro blk current blocks hk
    match blocks with
    | [] => simp at hk
    | b :: rest =>
      obtain ⟨blk', heq, hval, hframe⟩ := ih (writeU32 blk (4 * current) b) (current + 1) rest
        (by simp at hk ⊢; omega)
      refine ⟨blk', ?_, fun j h1 h2 => ?_, fun i hi => ?_⟩
      · rw [fillIndirectLoop, heq]
        refine congrArg _ (congrArg₂ Prod.mk rfl (congrArg₂ Prod.mk (by omega) rfl))
      · by_cases hj : j = current
        · subst hj
          have hfr : ∀ i, i < 4 * (j + 1) ∨ 4 * (j + 1 + k) ≤ i →
              blk' i = writeU32 blk (4 * j) b i := hframe
          rw [show readU32 blk' (4 * j) = readU32 (writeU32 blk (4 * j) b)
              (4 * j) from by
            rw [readU32]
            rw [hfr (4 * j) (by omega), hfr (4 * j + 1) (by omega),
              hfr (4 * j + 2) (by omega), hfr (4 * j + 3) (by omega)]
            rfl]
          rw [readU32_writeU32, Nat.sub_self, List.getD_cons_zero]
        · rw [hval j (by omega) (by omega),
            show j - current = j - (current + 1) + 1 from by omega, List.getD_cons_succ]
      · rw [hframe i (by omega)]
        rw [writeU32_frame _ _ _ _ (by omega)]

/-- Number of multiples of 128 in the interval from p0 (inclusive) to p
(exclusive); counts the second-level index blocks consumed by the
double-indirect fill between those positions. -/
def mulsIn (p0 p : Nat) : Nat := (p + 127) / 128 - (p0 + 127) / 128

/-- Identity of the second-level index block for level a, as seen by a
double-indirect fill starting at position p0 with the given level-2 index
image and block supply: levels already entered keep their stored id,
levels entered by this fill get the id consumed at their first position. -/
def subIdAt (ind2 : BlockData) (blocks : List Nat) (p0 a : Nat) : Nat :=
  if 128 * a < p0 then readU32 ind2 (4 * a)
  else blocks.getD ((128 * a - p0) + mulsIn p0 (128 * a)) 0 % 4294967296

/-- Consumption index of the data block written at double-range position p
by a fill starting at p0. -/
def dataIdxAt (p0 p : Nat) : Nat :=
  (p - p0) + mulsIn p0 p + (if p % 128 = 0 then 1 else 0)

theorem subIdAt_step (ind2 : BlockData) (blocks : List Nat) (p0 a : Nat)
    (hb : p0 % 128 = 0 → 128 * (p0 / 128) = p0)
    (ind2₁ : BlockData) (blocks₁ : List Nat)
    (hind2₁ : if p0 % 128 = 0 then
        ind2₁ = writeU32 ind2 (4 * (p0 / 128)) (blocks.getD 0 0) else ind2₁ = ind2)
    (hblocks₁ : blocks₁ = blocks.drop (if p0 % 128 = 0 then 2 else 1))
    (ha : 128 * a < p0 + 1 ∨ 128 * a > p0) :
    subIdAt ind2₁ blocks₁ (p0 + 1) a = subIdAt ind2 blocks p0 a := by
  rw [subIdAt, subIdAt]
  by_cases hlt : 128 * a < p0
  · -- a level entered before this fill: its entry is not rewritten
    rw [if_pos (by omega), if_pos hlt]
    by_cases hm : p0 % 128 = 0
    · rw [if_pos hm] at hind2₁
      rw [hind2₁, readU32_frame _ _ _ _ (by
        have h4 : a ≠ p0 / 128 := by omega
        omega)]
    · rw [if_neg hm] at hind2₁
      rw [hind2₁]
  · by_cases heq : 128 * a = p0
    · -- the level entered exactly at p0: its id was just consumed
      rw [if_pos (by omega), if_neg (by omega), heq]
      have hm : p0 % 128 = 0 := by omega
      rw [if_pos hm] at hind2₁
      have ha0 : p0 / 128 = a := by omega
      rw [hind2₁, ha0, readU32_writeU32]
      rw [show p0 - p0 + mulsIn p0 p0 = 0 from by rw [mulsIn]; omega]
    · -- a level entered later: shift the consumption index
      have hgt : 128 * a > p0 := by omega
      rw [if_neg (by omega), if_neg (by omega)]
      rw [hblocks₁, getD_drop]
      congr 2
      rw [mulsIn, mulsIn]
      split <;> omega

theorem dataIdxAt_step (p0 p : Nat) (hp : p0 < p) :
    dataIdxAt (p0 + 1) p + (if p0 % 128 = 0 then 2 else 1) = dataIdxAt p0 p := by
  rw [dataIdxAt, dataIdxAt, mulsIn, mulsIn]
  split <;> split <;> omega

theorem fillIndirect2Loop_exit (a1 b1 fuel a0 b0 : Nat) (ind2 : BlockData) (d : Disk)
    (blocks : List Nat) (hcond : ¬ ((a0 < a1) ∨ (a0 = a1 ∧ b0 < b1))) :
    fillIndirect2Loop a1 b1 (fuel + 1) a0 b0 ind2 d blocks = some (ind2, d, blocks) := by
  rw [fillIndirect2Loop.eq_def]
  simp only [if_neg hcond]

theorem fillIndirect2Loop_step_pos (a1 b1 fuel a0 b0 : Nat) (ind2 : BlockData) (d : Disk)
    (c : Nat) (rest : List Nat)
    (hcond : (a0 < a1) ∨ (a0 = a1 ∧ b0 < b1)) (hb0 : b0 ≠ 0) :
    fillIndirect2Loop a1 b1 (fuel + 1) a0 b0 ind2 d (c :: rest) =
      (if b0 + 1 = 128 then
        fillIndirect2Loop a1 b1 fuel (a0 + 1) 0 ind2
          (setBlock d (readU32 ind2 (4 * a0))
            (writeU32 (d (readU32 ind2 (4 * a0))) (4 * b0) c)) rest
      else
        fillIndirect2Loop a1 b1 fuel a0 (b0 + 1) ind2
          (setBlock d (readU32 ind2 (4 * a0))
            (writeU32 (d (readU32 ind2 (4 * a0))) (4 * b0) c)) rest) := by
  rw [fillIndirect2Loop.eq_def]
  simp only [if_pos hcond, if_neg hb0]
  rfl

theorem fillIndirect2Loop_step_zero (a1 b1 fuel a0 : Nat) (ind2 : BlockData) (d : Disk)
    (c c2 : Nat) (rest : List Nat)
    (hcond : (a0 < a1) ∨ (a0 = a1 ∧ 0 < b1)) :
    fillIndirect2Loop a1 b1 (fuel + 1) a0 0 ind2 d (c :: c2 :: rest) =
      fillIndirect2Loop a1 b1 fuel a0 1 (writeU32 ind2 (4 * a0) c)
        (setBlock d (c % 4294967296)
          (writeU32 (d (c % 4294967296)) 0 c2)) rest := by
  rw [fillIndirect2Loop.eq_def]
  simp only [if_pos hcond, eq_self_iff_true, if_true, readU32_writeU32]
  rw [if_neg (by decide : ¬ (0 + 1 = INODE_INDIRECT1_COUNT))]

theorem readU32_eq_of_bytes (b b' : BlockData) (off : Nat)
    (h : ∀ i, off ≤ i → i < off + 4 → b' i = b i) : readU32 b' off = readU32 b off := by
  rw [readU32, readU32, h off (by omega) (by omega), h (off + 1) (by omega) (by omega),
    h (off + 2) (by omega) (by omega), h (off + 3) (by omega) (by omega)]

/-- One step of the double-indirect fill, rephrased over the linear
position p0 = 128 * a0 + b0: when entering a level (p0 a multiple of 128)
the level-2 entry receives the first supplied block, and in every case the
data block id consumed at this position is written into entry p0 mod 128 of
the level's second-level index block. -/
theorem fillIndirect2Loop_step (a1 b1 fuel p0 : Nat) (ind2 : BlockData) (d : Disk)
    (blocks : List Nat) (hb1 : b1 ≤ 128) (hlt : p0 < 128 * a1 + b1)
    (hlen : (if p0 % 128 = 0 then 2 else 1) ≤ blocks.length) :
    fillIndirect2Loop a1 b1 (fuel + 1) (p0 / 128) (p0 % 128) ind2 d blocks =
      fillIndirect2Loop a1 b1 fuel ((p0 + 1) / 128) ((p0 + 1) % 128)
        (if p0 % 128 = 0 then writeU32 ind2 (4 * (p0 / 128)) (blocks.getD 0 0) else ind2)
        (setBlock d (subIdAt ind2 blocks p0 (p0 / 128))
          (writeU32 (d (subIdAt ind2 blocks p0 (p0 / 128))) (4 * (p0 % 128))
            (blocks.getD (dataIdxAt p0 p0) 0)))
        (blocks.drop (if p0 % 128 = 0 then 2 else 1)) := by
  by_cases hm : p0 % 128 = 0
  · simp only [if_pos hm] at hlen ⊢
    match blocks, hlen with
    | c :: c2 :: rest, _ =>
      rw [hm]
      rw [fillIndirect2Loop_step_zero a1 b1 fuel (p0 / 128) ind2 d c c2 rest (by omega)]
      have e1 : (p0 + 1) / 128 = p0 / 128 := by omega
      have e2 : (p0 + 1) % 128 = 1 := by omega
      have e3 : subIdAt ind2 (c :: c2 :: rest) p0 (p0 / 128) = c % 4294967296 := by
        rw [subIdAt, if_neg (by omega)]
        rw [show 128 * (p0 / 128) - p0 + mulsIn p0 (128 * (p0 / 128)) = 0 from by
          rw [mulsIn]; omega]
        rfl
      have e4 : dataIdxAt p0 p0 = 1 := by
        rw [dataIdxAt, mulsIn, if_pos hm]
        omega
      have e5 : (c :: c2 :: rest).getD 0 0 = c := rfl
      have e6 : (c :: c2 :: rest).getD 1 0 = c2 := rfl
      rw [e1, e2, e3, e4, e5, e6]
      rfl
  · simp only [if_neg hm] at hlen ⊢
    match blocks, hlen with
    | c :: rest, _ =>
      have e3 : subIdAt ind2 (c :: rest) p0 (p0 / 128) = readU32 ind2 (4 * (p0 / 128)) := by
        rw [subIdAt, if_pos (by omega)]
      have e4 : dataIdxAt p0 p0 = 0 := by
        rw [dataIdxAt, mulsIn, if_neg hm]
        omega
      have e5 : (c :: rest).getD 0 0 = c := rfl
      rw [fillIndirect2Loop_step_pos a1 b1 fuel (p0 / 128) (p0 % 128) ind2 d c rest
        (by omega) hm]
      rw [e3, e4, e5]
      by_cases hs : p0 % 128 + 1 = 128
      · rw [if_pos hs]
        have e1 : (p0 + 1) / 128 = p0 / 128 + 1 := by omega
        have e2 : (p0 + 1) % 128 = 0 := by omega
        rw [e1, e2]
        rfl
      · rw [if_neg hs]
        have e1 : (p0 + 1) / 128 = p0 / 128 := by omega
        have e2 : (p0 + 1) % 128 = p0 % 128 + 1 := by omega
        rw [e1, e2]
        rfl

/-- Full characterization of the double-indirect fill, over linear
positions: starting at position p0 with distinct second-level ids, the
loop consumes one block per position plus one per level entered, records
the entered levels in the level-2 index image, writes each position's data
block id into its level's second-level index block, and touches nothing
else. -/
theorem fillIndirect2Loop_spec (a1 b1 : Nat) (hb1 : b1 ≤ 128) :
    ∀ (fuel p0 : Nat) (ind2 : BlockData) (d : Disk) (blocks : List Nat),
      128 * a1 + b1 - p0 ≤ fuel →
      128 * a1 + b1 - p0 + mulsIn p0 (128 * a1 + b1) ≤ blocks.length →
      (∀ a a', a ≤ a1 → a' ≤ a1 → a ≠ a' →
        subIdAt ind2 blocks p0 a ≠ subIdAt ind2 blocks p0 a') →
      ∃ ind2' d',
        fillIndirect2Loop a1 b1 fuel (p0 / 128) (p0 % 128) ind2 d blocks =
          some (ind2', d',
            blocks.drop (128 * a1 + b1 - p0 + mulsIn p0 (128 * a1 + b1))) ∧
        (∀ i, (∀ a, p0 ≤ 128 * a → 128 * a < 128 * a1 + b1 →
            i < 4 * a ∨ 4 * a + 4 ≤ i) → ind2' i = ind2 i) ∧
        (∀ a, p0 ≤ 128 * a → 128 * a < 128 * a1 + b1 →
          readU32 ind2' (4 * a) = subIdAt ind2 blocks p0 a) ∧
        (∀ i, (∀ a, p0 / 128 ≤ a → 128 * a < 128 * a1 + b1 →
            i ≠ subIdAt ind2 blocks p0 a) → d' i = d i) ∧
        (∀ p, p0 ≤ p → p < 128 * a1 + b1 →
          readU32 (d' (subIdAt ind2 blocks p0 (p / 128))) (4 * (p % 128)) =
            blocks.getD (dataIdxAt p0 p) 0 % 4294967296) ∧
        (∀ i, i < 4 * (p0 % 128) →
          d' (subIdAt ind2 blocks p0 (p0 / 128)) i =
            d (subIdAt ind2 blocks p0 (p0 / 128)) i) := by
  intro fuel
  induction fuel with
  | zero =>
    intro p0 ind2 d blocks hfuel hlen hdist
    have hple : 128 * a1 + b1 ≤ p0 := by omega
    have hcnt : 128 * a1 + b1 - p0 + mulsIn p0 (128 * a1 + b1) = 0 := by
      rw [mulsIn]; omega
    refine ⟨ind2, d, ?_, fun i _ => rfl, fun a h1 h2 => absurd h2 (by omega),
      fun i _ => rfl, fun p h1 h2 => absurd h2 (by omega), fun i _ => rfl⟩
    rw [hcnt, List.drop_zero]
    rfl
  | succ fuel ih =>
    intro p0 ind2 d blocks hfuel hlen hdist
    by_cases hlt : p0 < 128 * a1 + b1
    · -- one more position to process
      have hk : (if p0 % 128 = 0 then 2 else 1) ≤ blocks.length := by
        have : 1 ≤ mulsIn p0 (128 * a1 + b1) ∨ ¬ (p0 % 128 = 0) := by
          rw [mulsIn]; omega
        split <;> omega
      rw [fillIndirect2Loop_step a1 b1 fuel p0 ind2 d blocks hb1 hlt hk]
      set ind2₁ := if p0 % 128 = 0 then writeU32 ind2 (4 * (p0 / 128)) (blocks.getD 0 0)
        else ind2 with hind2₁
      set sid := subIdAt ind2 blocks p0 (p0 / 128) with hsid
      set d₁ := setBlock d sid
        (writeU32 (d sid) (4 * (p0 % 128)) (blocks.getD (dataIdxAt p0 p0) 0)) with hd₁
      set blocks₁ := blocks.drop (if p0 % 128 = 0 then 2 else 1) with hblocks₁
      have hsub : ∀ a, subIdAt ind2₁ blocks₁ (p0 + 1) a = subIdAt ind2 blocks p0 a := by
        intro a
        refine subIdAt_step ind2 blocks p0 a (by omega) ind2₁ blocks₁ ?_ hblocks₁ (by omega)
        rw [hind2₁]
        split <;> rfl
      have hmuls : mulsIn p0 (128 * a1 + b1) =
          mulsIn (p0 + 1) (128 * a1 + b1) + (if p0 % 128 = 0 then 1 else 0) := by
        rw [mulsIn, mulsIn]; split <;> omega
      obtain ⟨ind2', d', heq, h2, h3, h4, h5, h6⟩ := ih (p0 + 1) ind2₁ d₁ blocks₁
        (by omega)
        (by
          rw [hblocks₁, List.length_drop]
          by_cases hm : p0 % 128 = 0
          · simp only [if_pos hm] at hmuls ⊢
            omega
          · simp only [if_neg hm] at hmuls ⊢
            omega)
        (by intro a a' ha ha' hne; rw [hsub a, hsub a']; exact hdist a a' ha ha' hne)
      refine ⟨ind2', d', ?_, ?_, ?_, ?_, ?_, ?_⟩
      · -- result value and remaining supply
        rw [heq, hblocks₁, List.drop_drop]
        refine congrArg _ (congrArg₂ Prod.mk rfl (congrArg₂ Prod.mk rfl (congrArg₂ _ ?_ rfl)))
        by_cases hm : p0 % 128 = 0
        · simp only [if_pos hm] at hmuls ⊢
          omega
        · simp only [if_neg hm] at hmuls ⊢
          omega
      · -- level-2 image frame
        intro i hi
        rw [h2 i (fun a ha1 ha2 => hi a (by omega) ha2)]
        rw [hind2₁]
        split
        · exact writeU32_frame _ _ _ _ (by
            have := hi (p0 / 128) (by omega) (by omega)
            omega)
        · rfl
      · -- level-2 entries written
        intro a ha1 ha2
        by_cases hfresh : p0 + 1 ≤ 128 * a
        · rw [h3 a hfresh ha2, hsub a]
        · -- the level entered at exactly p0
          have ha0 : 128 * a = p0 := by omega
          have hm : p0 % 128 = 0 := by omega
          have hdiva : p0 / 128 = a := by omega
          rw [readU32_eq_of_bytes (ind2₁) ind2' (4 * a) (by
            intro i hi1 hi2
            refine h2 i (fun a'' ha''1 ha''2 => ?_)
            have : a'' ≠ a := by omega
            omega)]
          rw [hind2₁]
          simp only [if_pos hm, hdiva]
          rw [readU32_writeU32]
          rw [subIdAt, if_neg (by omega)]
          rw [show 128 * a - p0 + mulsIn p0 (128 * a) = 0 from by rw [mulsIn]; omega]
      · -- disk frame
        intro i hi
        rw [h4 i (fun a ha1 ha2 => by rw [hsub a]; exact hi a (by omega) ha2)]
        rw [hd₁, setBlock_ne _ _ _ _ (hi (p0 / 128) le_rfl (by omega))]
      · -- data entries written
        intro p hp1 hp2
        by_cases hpp : p0 + 1 ≤ p
        · have hx := h5 p hpp hp2
          rw [hsub (p / 128), hblocks₁, getD_drop] at hx
          rw [hx]
          congr 2
          have := dataIdxAt_step p0 p (by omega)
          split at this <;> split <;> omega
        · -- the position processed by this step
          have hpe : p = p0 := by omega
          subst hpe
          by_cases hcont : (p + 1) % 128 = 0
          · -- the level is complete; its block is untouched afterwards
            rw [h4 (subIdAt ind2 blocks p (p / 128)) (fun a ha1 ha2 => by
              rw [hsub a]
              refine hdist (p / 128) a (by omega) (by omega) (by omega)
              )]
            rw [hd₁, setBlock_eq, readU32_writeU32]
          · -- the level continues; only higher entries are written afterwards
            have hdiv : (p + 1) / 128 = p / 128 := by omega
            have hx := h6 (4 * (p % 128) + 3)
            rw [readU32_eq_of_bytes (d₁ (subIdAt ind2 blocks p (p / 128)))
              (d' (subIdAt ind2 blocks p (p / 128))) (4 * (p % 128)) (by
                intro i hi1 hi2
                have hy := h6 i (by omega)
                rw [hsub, hdiv] at hy
                exact hy)]
            rw [hd₁, setBlock_eq, readU32_writeU32]
      · -- low entries of the current level's block are preserved
        intro i hi
        have hblk : subIdAt ind2 blocks p0 (p0 / 128) = sid := hsid.symm
        by_cases hcont : (p0 + 1) % 128 = 0
        · rw [h4 sid (fun a ha1 ha2 => by
            rw [hsub a]
            rw [hsid]
            refine hdist (p0 / 128) a (by omega) (by omega) (by omega))]
          rw [hd₁, setBlock_eq]
          rw [writeU32_frame _ _ _ _ (by omega)]
        · have hdiv : (p0 + 1) / 128 = p0 / 128 := by omega
          have hy := h6 i (by omega)
          rw [hsub, hdiv] at hy
          rw [hy, hd₁, setBlock_eq, writeU32_frame _ _ _ _ (by omega)]
    · -- nothing to process
      have hcnt : 128 * a1 + b1 - p0 + mulsIn p0 (128 * a1 + b1) = 0 := by
        rw [mulsIn]; omega
      refine ⟨ind2, d, ?_, fun i _ => rfl, fun a h1 h2 => absurd h2 (by omega),
        fun i _ => rfl, fun p h1 h2 => absurd h2 (by omega), fun i _ => rfl⟩
      rw [hcnt, List.drop_zero]
      exact fillIndirect2Loop_exit a1 b1 fuel (p0 / 128) (p0 % 128) ind2 d blocks (by omega)

/-- Number of second-level index blocks needed for db data blocks. -/
def numSub (db : Nat) : Nat :=
  (db - INDIRECT1_BOUND + INODE_INDIRECT1_COUNT - 1) / INODE_INDIRECT1_COUNT

/-- Consumption position of the n-th logical data block in the canonical
growth order from an empty inode. -/
def blockPos (n : Nat) : Nat :=
  if n < 28 then n
  else if n < 156 then n + 1
  else 159 + (n - 156) / 128 + (n - 156)

/-- Consumption position of the a-th second-level index block. -/
def subPos (a : Nat) : Nat := 158 + 129 * a

/-- Canonical layout invariant: the inode's block structure is exactly
what growing it from empty while consuming the ids of bl, in order,
produces.  The positions 28 and 157 hold the indirect1 and indirect2
index ids, subPos a the second-level index ids, and blockPos n the data
block ids. -/
def ZeroGrown (d : Disk) (ino : DiskInode) (bl : List Nat) : Prop :=
  ino.size < 4294967296 ∧
  (∀ x ∈ bl, x < 4294967296) ∧
  bl.length = DiskInode.total_blocks ino.size ∧
  (∀ n, n < min ino.data_blocks 28 → ino.direct n = bl.getD (blockPos n) 0) ∧
  (ino.data_blocks > 28 →
    ino.indirect1 = bl.getD 28 0 ∧
    ∀ n, 28 ≤ n → n < min ino.data_blocks 156 →
      readU32 (d ino.indirect1) (4 * (n - 28)) = bl.getD (blockPos n) 0) ∧
  (ino.data_blocks > 156 →
    ino.indirect2 = bl.getD 157 0 ∧
    (∀ a, a < numSub ino.data_blocks →
      readU32 (d ino.indirect2) (4 * a) = bl.getD (subPos a) 0) ∧
    (∀ n, 156 ≤ n → n < ino.data_blocks →
      readU32 (d (bl.getD (subPos ((n - 156) / 128)) 0)) (4 * ((n - 156) % 128)) =
        bl.getD (blockPos n) 0))

/-- Block ids that an increase_size up to db data blocks may write to:
the indirect1 index, the indirect2 index and the second-level indexes of
the final layout bl. -/
def IndexTouched (bl : List Nat) (db : Nat) (i : Nat) : Prop :=
  (db > 28 ∧ i = bl.getD 28 0) ∨
  (db > 156 ∧ (i = bl.getD 157 0 ∨ ∃ a, a < numSub db ∧ i = bl.getD (subPos a) 0))

theorem total_blocks_eval (s : Nat) :
    DiskInode.total_blocks s =
      DiskInode.data_blocks_for s +
        (if DiskInode.data_blocks_for s > 28 then 1 else 0) +
        (if DiskInode.data_blocks_for s > 156 then
          1 + (DiskInode.data_blocks_for s - 156 + 127) / 128 else 0) := by
  rw [DiskInode.total_blocks]
  simp only [INODE_DIRECT_COUNT_eq, INDIRECT1_BOUND_eq, INODE_INDIRECT1_COUNT_eq]
  split
  · split
    · omega
    · omega
  · split
    · omega
    · omega

theorem data_blocks_for_mono {s t : Nat} (h : s ≤ t) :
    DiskInode.data_blocks_for s ≤ DiskInode.data_blocks_for t := by
  rw [DiskInode.data_blocks_for, DiskInode.data_blocks_for, BLOCK_SZ_eq]
  omega

theorem total_blocks_mono {s t : Nat} (h : s ≤ t) :
    DiskInode.total_blocks s ≤ DiskInode.total_blocks t := by
  rw [total_blocks_eval, total_blocks_eval]
  have := data_blocks_for_mono h
  split <;> split <;> split <;> split <;> omega

/-- Under the canonical layout, get_block_id addresses the data block
recorded at the logical block's consumption position. -/
theorem ZeroGrown.get_block_id_eq {d : Disk} {ino : DiskInode} {bl : List Nat}
    (h : ZeroGrown d ino bl) (n : Nat) (hn : n < ino.data_blocks) :
    DiskInode.get_block_id d ino n = bl.getD (blockPos n) 0 := by
  obtain ⟨-, -, -, hdir, hind1, hind2⟩ := h
  rw [DiskInode.get_block_id]
  simp only [INODE_DIRECT_COUNT_eq, INDIRECT1_BOUND_eq, INODE_INDIRECT1_COUNT_eq]
  by_cases h1 : n < 28
  · rw [if_pos h1]
    exact hdir n (by omega)
  · rw [if_neg h1]
    by_cases h2 : n < 156
    · rw [if_pos h2]
      obtain ⟨-, hv⟩ := hind1 (by omega)
      exact hv n (by omega) (by omega)
    · rw [if_neg h2]
      obtain ⟨-, hsub, hv⟩ := hind2 (by omega)
      have hs := hsub ((n - 156) / 128) (by
        rw [numSub, INDIRECT1_BOUND_eq, INODE_INDIRECT1_COUNT_eq]
        omega)
      rw [hs]
      exact hv n (by omega) hn

/-- Total blocks as a function of the data-block count. -/
def totalFor (db : Nat) : Nat :=
  db + (if db > 28 then 1 else 0) + (if db > 156 then 1 + numSub db else 0)

theorem numSub_eq (db : Nat) : numSub db = (db - 156 + 127) / 128 := by
  rw [numSub, INDIRECT1_BOUND_eq, INODE_INDIRECT1_COUNT_eq]
  omega

theorem total_blocks_totalFor (s : Nat) :
    DiskInode.total_blocks s = totalFor (DiskInode.data_blocks_for s) := by
  rw [total_blocks_eval, totalFor, numSub_eq]

theorem blockPos_lt_totalFor (n db : Nat) (h : n < db) : blockPos n < totalFor db := by
  rw [blockPos, totalFor, numSub_eq]
  split_ifs <;> omega

theorem subPos_lt_totalFor (a db : Nat) (h : a < numSub db) (hdb : db > 156) :
    subPos a < totalFor db := by
  rw [subPos, totalFor, numSub_eq] at *
  split_ifs <;> omega

theorem ind1Pos_lt_totalFor (db : Nat) (h : db > 28) : 28 < totalFor db := by
  rw [totalFor]
  split_ifs <;> omega

theorem ind2Pos_lt_totalFor (db : Nat) (h : db > 156) : 157 < totalFor db := by
  rw [totalFor, numSub_eq]
  split_ifs <;> omega

theorem blockPos_strictMono (n m : Nat) (h : n < m) : blockPos n < blockPos m := by
  rw [blockPos, blockPos]
  split_ifs <;> omega

theorem blockPos_ne_28 (n : Nat) : blockPos n ≠ 28 := by
  rw [blockPos]
  split_ifs <;> omega

theorem blockPos_ne_157 (n : Nat) : blockPos n ≠ 157 := by
  rw [blockPos]
  split_ifs <;> omega

theorem blockPos_ne_subPos (n a : Nat) : blockPos n ≠ subPos a := by
  rw [blockPos, subPos]
  split_ifs <;> omega

theorem subPos_ne_28 (a : Nat) : subPos a ≠ 28 := by
  rw [subPos]
  omega

theorem subPos_ne_157 (a : Nat) : subPos a ≠ 157 := by
  rw [subPos]
  omega

theorem subPos_inj (a a' : Nat) (h : subPos a = subPos a') : a = a' := by
  rw [subPos, subPos] at h
  omega

theorem nodup_getD_ne {l : List Nat} (h : l.Nodup) {i j : Nat}
    (hi : i < l.length) (hj : j < l.length) (hij : i ≠ j) :
    l.getD i 0 ≠ l.getD j 0 := by
  rw [getD_lt _ _ hi, getD_lt _ _ hj]
  intro he
  exact hij (h.getElem_inj_iff.mp he)

theorem totalFor_mono {db db' : Nat} (h : db ≤ db') : totalFor db ≤ totalFor db' := by
  rw [totalFor, totalFor, numSub_eq, numSub_eq]
  split_ifs <;> omega

theorem totalFor_eval (db : Nat) : totalFor db =
    db + (if db > 28 then 1 else 0) +
      (if db > 156 then 1 + (db - 156 + 127) / 128 else 0) := by
  rw [totalFor, numSub_eq]

theorem getD_append_lo (l l' : List Nat) (p : Nat) (h : p < l.length) :
    (l ++ l').getD p 0 = l.getD p 0 := by
  rw [List.getD_eq_getElem?_getD, List.getD_eq_getElem?_getD, List.getElem?_append,
    if_pos h]

theorem getD_append_hi (l l' : List Nat) (p : Nat) :
    (l ++ l').getD (l.length + p) 0 = l'.getD p 0 := by
  rw [List.getD_eq_getElem?_getD, List.getD_eq_getElem?_getD,
    List.getElem?_append_right (by omega)]
  congr 2
  omega

theorem drop_eq_getD_cons (l : List Nat) (k : Nat) (h : k < l.length) :
    l.drop k = l.getD k 0 :: l.drop (k + 1) := by
  rw [List.drop_eq_getElem_cons h, getD_lt _ _ h]

theorem getD_mem (l : List Nat) (i : Nat) (h : i < l.length) : l.getD i 0 ∈ l := by
  rw [getD_lt _ _ h]
  exact List.getElem_mem h

theorem getD_oob (l : List Nat) (i : Nat) (h : l.length ≤ i) : l.getD i 0 = 0 :=
  List.getD_eq_default _ _ h

theorem blockPos_lt28 (n : Nat) (h : n < 28) : blockPos n = n := by
  rw [blockPos, if_pos h]

theorem blockPos_lt156 (n : Nat) (h1 : 28 ≤ n) (h2 : n < 156) : blockPos n = n + 1 := by
  rw [blockPos, if_neg (by omega), if_pos h2]

theorem blockPos_ge156 (n : Nat) (h : 156 ≤ n) :
    blockPos n = 159 + (n - 156) / 128 + (n - 156) := by
  rw [blockPos, if_neg (by omega), if_neg (by omega)]

set_option maxRecDepth 8000 in
theorem increase_size_spec
    (d : Disk) (ino : DiskInode) (bl : List Nat) (new_size : Nat) (new_blocks : List Nat)
    (hzg : ZeroGrown d ino bl)
    (hsize : ino.size ≤ new_size)
    (hsz32 : new_size < 4294967296)
    (hlen : new_blocks.length =
      DiskInode.total_blocks new_size - DiskInode.total_blocks ino.size)
    (hnew32 : ∀ x ∈ new_blocks, x < 4294967296)
    (hpos : ∀ x ∈ bl ++ new_blocks, 0 < x)
    (hnodup : (bl ++ new_blocks).Nodup)
    (hbound : DiskInode.data_blocks_for new_size ≤ INDIRECT2_BOUND) :
    ∃ ino' d',
      DiskInode.increase_size d ino new_size new_blocks = some (ino', d') ∧
      ino'.size = new_size ∧
      ino'.type_ = ino.type_ ∧
      ZeroGrown d' ino' (bl ++ new_blocks) ∧
      ∀ i, ¬ IndexTouched (bl ++ new_blocks) (DiskInode.data_blocks_for new_size) i →
        d' i = d i := by
  obtain ⟨hsz32O, hbl32, hbllen, hdirO, hind1O, hind2O⟩ := hzg
  rw [total_blocks_totalFor, total_blocks_totalFor] at hlen
  rw [total_blocks_totalFor] at hbllen
  simp only [DiskInode.data_blocks] at hdirO hind1O hind2O
  rw [DiskInode.increase_size]
  simp only [DiskInode.data_blocks]
  simp only [INODE_DIRECT_COUNT_eq, INODE_INDIRECT1_COUNT_eq]
  rw [INDIRECT2_BOUND_eq] at hbound
  set odb := DiskInode.data_blocks_for ino.size with hodb
  set ndb := DiskInode.data_blocks_for new_size with hndb
  have hmono : odb ≤ ndb := data_blocks_for_mono hsize
  have hT0 : bl.length = totalFor odb := hbllen
  have hnlen : new_blocks.length = totalFor ndb - totalFor odb := hlen
  have htle : totalFor odb ≤ totalFor ndb := totalFor_mono hmono
  have hT1 : (bl ++ new_blocks).length = totalFor ndb := by
    rw [List.length_append]
    omega
  have hglo : ∀ p, p < totalFor odb → (bl ++ new_blocks).getD p 0 = bl.getD p 0 := by
    intro p hp
    exact getD_append_lo _ _ _ (by omega)
  have hghi : ∀ p, (bl ++ new_blocks).getD (totalFor odb + p) 0 = new_blocks.getD p 0 := by
    intro p
    conv in totalFor odb + p => rw [← hT0]
    exact getD_append_hi _ _ _
  have hval32 : ∀ p, new_blocks.getD p 0 % 4294967296 = new_blocks.getD p 0 := by
    intro p
    by_cases hp : p < new_blocks.length
    · exact Nat.mod_eq_of_lt (hnew32 _ (getD_mem _ _ hp))
    · rw [getD_oob _ _ (by omega)]
  have hblpos : ∀ p, p < totalFor ndb → 0 < (bl ++ new_blocks).getD p 0 := by
    intro p hp
    exact hpos _ (getD_mem _ _ (by omega))
  have hgeneric : ∀ q p, q = totalFor odb + p →
      (bl ++ new_blocks).getD q 0 = new_blocks.getD p 0 := by
    intro q p hq
    rw [hq, hghi]
  -- phase 1: fill the direct slots
  have hk₁len : min ndb 28 - odb ≤ new_blocks.length := by
    rw [hnlen, totalFor_eval, totalFor_eval]
    split_ifs <;> omega
  obtain ⟨direct', hfd, hdval⟩ :=
    fillDirectLoop_spec (min ndb 28 - odb) ino.direct odb new_blocks hk₁len
  rw [hfd]
  simp only [Option.bind_eq_bind, Option.some_bind]
  set k₁ := min ndb 28 - odb with hk₁def
  -- direct slots of the final inode, shared by all cases
  have hdir' : ∀ n, n < min ndb 28 → direct' n = (bl ++ new_blocks).getD (blockPos n) 0 := by
    intro n hn
    rw [hdval n, blockPos_lt28 n (by omega)]
    by_cases ho : n < odb
    · rw [if_neg (by omega)]
      rw [hglo n (by rw [totalFor_eval]; split_ifs <;> omega)]
      have hx := hdirO n (by omega)
      rw [blockPos_lt28 n (by omega)] at hx
      exact hx
    · rw [if_pos (by omega)]
      have hx := hghi (n - odb)
      rw [show totalFor odb + (n - odb) = n from by
        rw [totalFor_eval]; split_ifs <;> omega] at hx
      rw [hx]
  by_cases hC : ndb > 28
  · rw [if_pos hC]
    by_cases hO : odb ≤ 28
    · -- the indirect1 index block is consumed now
      rw [if_pos (show odb + k₁ = 28 from by omega)]
      have hk₁lt : k₁ < new_blocks.length := by
        rw [hk₁def, hnlen, totalFor_eval, totalFor_eval]
        split_ifs <;> omega
      rw [drop_eq_getD_cons new_blocks k₁ hk₁lt]
      simp only [Option.some_bind]
      rw [show odb + k₁ - 28 = 0 from by omega]
      -- phase 2: fill the indirect1 entries
      have hk₂len : min (ndb - 28) 128 - 0 ≤ (new_blocks.drop (k₁ + 1)).length := by
        rw [List.length_drop, hnlen, totalFor_eval, totalFor_eval, hk₁def]
        split_ifs <;> omega
      obtain ⟨ind1blk, hfi, hfival, hfiframe⟩ :=
        fillIndirectLoop_spec (min (ndb - 28) 128 - 0) (d (new_blocks.getD k₁ 0)) 0
          (new_blocks.drop (k₁ + 1)) hk₂len
      rw [hfi]
      simp only [Option.some_bind]
      have hind1id : new_blocks.getD k₁ 0 = (bl ++ new_blocks).getD 28 0 := by
        rw [show (28 : Nat) = totalFor odb + k₁ from by
          rw [totalFor_eval, hk₁def]; split_ifs <;> omega, hghi]
      by_cases hD : ndb > 156
      · -- case C after entering indirect1 at this growth: double-indirect level
        rw [if_pos (show ndb - 28 > 128 from by omega)]
        rw [if_pos (show 0 + ((ndb - 28) ⊓ 128 - 0) = 128 from by omega)]
        rw [List.drop_drop]
        rw [show k₁ + 1 + ((ndb - 28) ⊓ 128 - 0) = 157 - odb from by omega]
        rw [drop_eq_getD_cons new_blocks (157 - odb) (by
          rw [hnlen, totalFor_eval, totalFor_eval]
          split_ifs <;> omega)]
        simp only []
        rw [show (0 : Nat) + ((ndb - 28) ⊓ 128 - 0) - 128 = 0 from by omega]
        rw [show ndb - 28 - 128 = ndb - 156 from by omega]
        have hind2id : new_blocks.getD (157 - odb) 0 = (bl ++ new_blocks).getD 157 0 := by
          conv_rhs => rw [show (157 : Nat) = totalFor odb + (157 - odb) from by
            rw [totalFor_eval]; split_ifs <;> omega]
          rw [hghi]
        have hrestlen : (new_blocks.drop (157 - odb + 1)).length =
            ndb - 156 + (ndb - 156 + 127) / 128 := by
          rw [List.length_drop, hnlen, totalFor_eval, totalFor_eval]
          split_ifs <;> omega
        have hsubId : ∀ a, 128 * a < ndb - 156 →
            subIdAt (setBlock d (new_blocks.getD k₁ 0) ind1blk (new_blocks.getD (157 - odb) 0))
              (new_blocks.drop (157 - odb + 1)) 0 a = (bl ++ new_blocks).getD (subPos a) 0 := by
          intro a ha
          rw [subIdAt, if_neg (by omega), mulsIn]
          rw [show 128 * a - 0 + ((128 * a + 127) / 128 - (0 + 127) / 128) = 129 * a from by
            omega]
          rw [getD_drop, hval32]
          rw [show subPos a = totalFor odb + (157 - odb + 1 + 129 * a) from by
            rw [subPos, totalFor_eval]; split_ifs <;> omega]
          rw [hghi]
        have hsubId0 : ∀ a, ndb - 156 ≤ 128 * a →
            subIdAt (setBlock d (new_blocks.getD k₁ 0) ind1blk (new_blocks.getD (157 - odb) 0))
              (new_blocks.drop (157 - odb + 1)) 0 a = 0 := by
          intro a ha
          rw [subIdAt, if_neg (by omega), mulsIn, getD_oob _ _ (by omega), Nat.zero_mod]
        have hdist : ∀ a a', a ≤ (ndb - 156) / 128 → a' ≤ (ndb - 156) / 128 → a ≠ a' →
            subIdAt (setBlock d (new_blocks.getD k₁ 0) ind1blk (new_blocks.getD (157 - odb) 0))
              (new_blocks.drop (157 - odb + 1)) 0 a ≠
            subIdAt (setBlock d (new_blocks.getD k₁ 0) ind1blk (new_blocks.getD (157 - odb) 0))
              (new_blocks.drop (157 - odb + 1)) 0 a' := by
          intro a a' ha ha' hne
          by_cases hin : 128 * a < ndb - 156
          · rw [hsubId a hin]
            by_cases hin' : 128 * a' < ndb - 156
            · rw [hsubId a' hin']
              refine nodup_getD_ne hnodup ?_ ?_ (fun he => hne (subPos_inj _ _ he))
              · rw [hT1]
                exact subPos_lt_totalFor a ndb (by rw [numSub_eq]; omega) hD
              · rw [hT1]
                exact subPos_lt_totalFor a' ndb (by rw [numSub_eq]; omega) hD
            · rw [hsubId0 a' (by omega)]
              have := hblpos (subPos a) (subPos_lt_totalFor a ndb
                (by rw [numSub_eq]; omega) hD)
              omega
          · rw [hsubId0 a (by omega)]
            by_cases hin' : 128 * a' < ndb - 156
            · rw [hsubId a' hin']
              have := hblpos (subPos a') (subPos_lt_totalFor a' ndb
                (by rw [numSub_eq]; omega) hD)
              omega
            · exact absurd (show a = a' from by omega) hne
        obtain ⟨ind2blk, d2, heq2, h2, h3, h4, h5, h6⟩ :=
          fillIndirect2Loop_spec ((ndb - 156) / 128) ((ndb - 156) % 128) (by omega)
            (128 * ((ndb - 156) / 128) + (ndb - 156) % 128 - (128 * (0 / 128) + 0 % 128)) 0
            (setBlock d (new_blocks.getD k₁ 0) ind1blk (new_blocks.getD (157 - odb) 0))
            (setBlock d (new_blocks.getD k₁ 0) ind1blk) (new_blocks.drop (157 - odb + 1))
            (by omega) (by rw [mulsIn, hrestlen]; omega) hdist
        rw [heq2]
        simp only [Option.some_bind, Option.pure_def]
        have hTT : 128 * ((ndb - 156) / 128) + (ndb - 156) % 128 = ndb - 156 := by omega
        simp only [hTT, Nat.zero_div, Nat.zero_mod] at h2 h3 h4 h5 h6
        refine ⟨_, _, rfl, rfl, rfl, ⟨hsz32, ?_, ?_, ?_, ?_, ?_⟩, ?_⟩
        · intro x hx
          rcases List.mem_append.mp hx with h | h
          exacts [hbl32 x h, hnew32 x h]
        · rw [total_blocks_totalFor, ← hndb]
          exact hT1
        · intro n hn
          simp only [DiskInode.data_blocks] at hn
          rw [← hndb] at hn
          exact hdir' n hn
        · -- indirect1 id and entries survive the double-indirect phase
          intro hgt
          refine ⟨hind1id, ?_⟩
          intro n h28 hn
          simp only [DiskInode.data_blocks] at hn
          rw [← hndb] at hn
          show readU32 (setBlock d2 (new_blocks.getD (157 - odb) 0) ind2blk
            (new_blocks.getD k₁ 0)) (4 * (n - 28)) = _
          rw [setBlock_ne _ _ _ _ (by
            rw [hind1id, hind2id]
            exact nodup_getD_ne hnodup (by rw [hT1]; exact ind1Pos_lt_totalFor ndb hC)
              (by rw [hT1]; exact ind2Pos_lt_totalFor ndb hD) (by omega))]
          rw [h4 (new_blocks.getD k₁ 0) (fun a _ ha2 => by
            rw [hsubId a ha2, hind1id]
            exact nodup_getD_ne hnodup (by rw [hT1]; exact ind1Pos_lt_totalFor ndb hC)
              (by rw [hT1]; exact subPos_lt_totalFor a ndb (by rw [numSub_eq]; omega) hD)
              (fun h => subPos_ne_28 a h.symm))]
          rw [setBlock_eq, hfival (n - 28) (by omega) (by omega), Nat.sub_zero,
            getD_drop, hval32]
          exact (hgeneric (blockPos n) _ (by
            rw [blockPos_lt156 n h28 (by omega), totalFor_eval, hk₁def]
            split_ifs <;> omega)).symm
        · -- indirect2 id, entries and data blocks
          intro hgt
          refine ⟨hind2id, ?_, ?_⟩
          · intro a ha
            simp only [DiskInode.data_blocks] at ha
            rw [← hndb] at ha
            show readU32 (setBlock d2 (new_blocks.getD (157 - odb) 0) ind2blk
              (new_blocks.getD (157 - odb) 0)) (4 * a) = _
            rw [setBlock_eq, h3 a (by omega) (by rw [numSub_eq] at ha; omega),
              hsubId a (by rw [numSub_eq] at ha; omega)]
          · intro n h156 hn
            simp only [DiskInode.data_blocks] at hn
            rw [← hndb] at hn
            show readU32 (setBlock d2 (new_blocks.getD (157 - odb) 0) ind2blk
              ((bl ++ new_blocks).getD (subPos ((n - 156) / 128)) 0)) (4 * ((n - 156) % 128)) = _
            rw [setBlock_ne _ _ _ _ (by
              rw [hind2id]
              exact nodup_getD_ne hnodup
                (by rw [hT1]; exact subPos_lt_totalFor _ ndb (by rw [numSub_eq]; omega) hD)
                (by rw [hT1]; exact ind2Pos_lt_totalFor ndb hD)
                (subPos_ne_157 _))]
            rw [← hsubId ((n - 156) / 128) (by omega)]
            rw [h5 (n - 156) (by omega) (by omega)]
            rw [dataIdxAt, mulsIn, getD_drop, hval32]
            exact (hgeneric (blockPos n) _ (by
              rw [blockPos_ge156 n (by omega), totalFor_eval]
              split_ifs <;> omega)).symm
        · -- frame: only index blocks of the final layout are written
          intro i hIT
          have hIT' : ¬ ((ndb > 28 ∧ i = (bl ++ new_blocks).getD 28 0) ∨
              (ndb > 156 ∧ (i = (bl ++ new_blocks).getD 157 0 ∨
                ∃ a, a < numSub ndb ∧ i = (bl ++ new_blocks).getD (subPos a) 0))) := hIT
          show setBlock d2 (new_blocks.getD (157 - odb) 0) ind2blk i = d i
          rw [setBlock_ne _ _ _ _ (by
            rw [hind2id]
            intro he
            exact hIT' (Or.inr ⟨hD, Or.inl he⟩))]
          rw [h4 i (fun a _ ha2 => by
            rw [hsubId a ha2]
            intro he
            exact hIT' (Or.inr ⟨hD, Or.inr ⟨a, by rw [numSub_eq]; omega, he⟩⟩))]
          rw [setBlock_ne _ _ _ _ (by
            rw [hind1id]
            intro he
            exact hIT' (Or.inl ⟨hC, he⟩))]
      · -- case B1: the growth stops at the indirect1 level
        rw [if_neg (show ¬ (ndb - 28 > 128) from by omega)]
        refine ⟨_, _, rfl, rfl, rfl, ⟨hsz32, ?_, ?_, ?_, ?_, ?_⟩, ?_⟩
        · intro x hx
          rcases List.mem_append.mp hx with h | h
          exacts [hbl32 x h, hnew32 x h]
        · rw [total_blocks_totalFor, ← hndb]
          exact hT1
        · intro n hn
          simp only [DiskInode.data_blocks] at hn
          rw [← hndb] at hn
          exact hdir' n hn
        · intro hgt
          refine ⟨hind1id, ?_⟩
          intro n h28 hn
          simp only [DiskInode.data_blocks] at hn
          rw [← hndb] at hn
          show readU32 (setBlock d (new_blocks.getD k₁ 0) ind1blk (new_blocks.getD k₁ 0))
            (4 * (n - 28)) = _
          rw [setBlock_eq, hfival (n - 28) (by omega) (by omega), Nat.sub_zero,
            getD_drop, hval32]
          rw [blockPos_lt156 n h28 (by omega)]
          rw [show n + 1 = totalFor odb + (k₁ + 1 + (n - 28)) from by
            rw [totalFor_eval, hk₁def]; split_ifs <;> omega, hghi]
        · intro hgt
          simp only [DiskInode.data_blocks] at hgt
          rw [← hndb] at hgt
          exact absurd hgt (by omega)
        · intro i hIT
          have hIT' : ¬ ((ndb > 28 ∧ i = (bl ++ new_blocks).getD 28 0) ∨
              (ndb > 156 ∧ (i = (bl ++ new_blocks).getD 157 0 ∨
                ∃ a, a < numSub ndb ∧ i = (bl ++ new_blocks).getD (subPos a) 0))) := hIT
          exact setBlock_ne _ _ _ _ (by
            rw [hind1id]
            intro he
            exact hIT' (Or.inl ⟨hC, he⟩))
    · -- odb > 28: the indirect1 index block already exists
      rw [if_neg (show ¬ (odb + k₁ = 28) from by omega)]
      rw [show odb + k₁ - 28 = odb - 28 from by omega]
      obtain ⟨hi1, hi1v⟩ := hind1O (by omega)
      have hind1id' : ino.indirect1 = (bl ++ new_blocks).getD 28 0 := by
        rw [hi1, hglo 28 (by rw [totalFor_eval]; split_ifs <;> omega)]
      -- phase 2 on the existing indirect1 block
      have hk₂len' : min (ndb - 28) 128 - (odb - 28) ≤ (new_blocks.drop k₁).length := by
        rw [List.length_drop, hnlen, totalFor_eval, totalFor_eval, hk₁def]
        split_ifs <;> omega
      obtain ⟨ind1blk, hfi, hfival, hfiframe⟩ :=
        fillIndirectLoop_spec (min (ndb - 28) 128 - (odb - 28)) (d ino.indirect1) (odb - 28)
          (new_blocks.drop k₁) hk₂len'
      rw [hfi]
      simp only [Option.some_bind]
      have hind1ent : ∀ n, 28 ≤ n → n < min ndb 156 →
          readU32 ind1blk (4 * (n - 28)) = (bl ++ new_blocks).getD (blockPos n) 0 := by
        intro n h28 hn
        by_cases ho : n < odb
        · rw [readU32_eq_of_bytes (d ino.indirect1) ind1blk _
            (fun i h1 h2 => hfiframe i (by omega))]
          rw [hi1v n h28 (by omega)]
          exact (hglo _ (blockPos_lt_totalFor n odb ho)).symm
        · rw [hfival (n - 28) (by omega) (by omega), getD_drop, hval32]
          exact (hgeneric (blockPos n) _ (by
            rw [blockPos_lt156 n h28 (by omega), totalFor_eval, hk₁def]
            split_ifs <;> omega)).symm
      by_cases hD : ndb > 156
      · rw [if_pos (show ndb - 28 > 128 from by omega)]
        by_cases hE : odb ≤ 156
        · -- the indirect2 index block is consumed now
          rw [if_pos (show odb - 28 + ((ndb - 28) ⊓ 128 - (odb - 28)) = 128 from by omega)]
          rw [List.drop_drop]
          rw [show k₁ + ((ndb - 28) ⊓ 128 - (odb - 28)) = 156 - odb from by omega]
          rw [drop_eq_getD_cons new_blocks (156 - odb) (by
            rw [hnlen, totalFor_eval, totalFor_eval]
            split_ifs <;> omega)]
          simp only []
          rw [show odb - 28 + ((ndb - 28) ⊓ 128 - (odb - 28)) - 128 = 0 from by omega]
          rw [show ndb - 28 - 128 = ndb - 156 from by omega]
          have hind2id' : new_blocks.getD (156 - odb) 0 = (bl ++ new_blocks).getD 157 0 := by
            conv_rhs => rw [show (157 : Nat) = totalFor odb + (156 - odb) from by
              rw [totalFor_eval]; split_ifs <;> omega]
            rw [hghi]
          have hrestlen : (new_blocks.drop (156 - odb + 1)).length =
              ndb - 156 + (ndb - 156 + 127) / 128 := by
            rw [List.length_drop, hnlen, totalFor_eval, totalFor_eval]
            split_ifs <;> omega
          have hsubId : ∀ a, 128 * a < ndb - 156 →
              subIdAt (setBlock d ino.indirect1 ind1blk (new_blocks.getD (156 - odb) 0))
                (new_blocks.drop (156 - odb + 1)) 0 a = (bl ++ new_blocks).getD (subPos a) 0 := by
            intro a ha
            rw [subIdAt, if_neg (by omega), mulsIn]
            rw [show 128 * a - 0 + ((128 * a + 127) / 128 - (0 + 127) / 128) = 129 * a from by
              omega]
            rw [getD_drop, hval32]
            rw [show subPos a = totalFor odb + (156 - odb + 1 + 129 * a) from by
              rw [subPos, totalFor_eval]; split_ifs <;> omega]
            rw [hghi]
          have hsubId0 : ∀ a, ndb - 156 ≤ 128 * a →
              subIdAt (setBlock d ino.indirect1 ind1blk (new_blocks.getD (156 - odb) 0))
                (new_blocks.drop (156 - odb + 1)) 0 a = 0 := by
            intro a ha
            rw [subIdAt, if_neg (by omega), mulsIn, getD_oob _ _ (by omega), Nat.zero_mod]
          have hdist : ∀ a a', a ≤ (ndb - 156) / 128 → a' ≤ (ndb - 156) / 128 → a ≠ a' →
              subIdAt (setBlock d ino.indirect1 ind1blk (new_blocks.getD (156 - odb) 0))
                (new_blocks.drop (156 - odb + 1)) 0 a ≠
              subIdAt (setBlock d ino.indirect1 ind1blk (new_blocks.getD (156 - odb) 0))
                (new_blocks.drop (156 - odb + 1)) 0 a' := by
            intro a a' ha ha' hne
            by_cases hin : 128 * a < ndb - 156
            · rw [hsubId a hin]
              by_cases hin' : 128 * a' < ndb - 156
              · rw [hsubId a' hin']
                refine nodup_getD_ne hnodup ?_ ?_ (fun he => hne (subPos_inj _ _ he))
                · rw [hT1]
                  exact subPos_lt_totalFor a ndb (by rw [numSub_eq]; omega) hD
                · rw [hT1]
                  exact subPos_lt_totalFor a' ndb (by rw [numSub_eq]; omega) hD
              · rw [hsubId0 a' (by omega)]
                have := hblpos (subPos a) (subPos_lt_totalFor a ndb
                  (by rw [numSub_eq]; omega) hD)
                omega
            · rw [hsubId0 a (by omega)]
              by_cases hin' : 128 * a' < ndb - 156
              · rw [hsubId a' hin']
                have := hblpos (subPos a') (subPos_lt_totalFor a' ndb
                  (by rw [numSub_eq]; omega) hD)
                omega
              · exact absurd (show a = a' from by omega) hne
          obtain ⟨ind2blk, d2, heq2, h2, h3, h4, h5, h6⟩ :=
            fillIndirect2Loop_spec ((ndb - 156) / 128) ((ndb - 156) % 128) (by omega)
              (128 * ((ndb - 156) / 128) + (ndb - 156) % 128 - (128 * (0 / 128) + 0 % 128)) 0
              (setBlock d ino.indirect1 ind1blk (new_blocks.getD (156 - odb) 0))
              (setBlock d ino.indirect1 ind1blk) (new_blocks.drop (156 - odb + 1))
              (by omega) (by rw [mulsIn, hrestlen]; omega) hdist
          rw [heq2]
          simp only [Option.some_bind, Option.pure_def]
          have hTT : 128 * ((ndb - 156) / 128) + (ndb - 156) % 128 = ndb - 156 := by omega
          simp only [hTT, Nat.zero_div, Nat.zero_mod] at h2 h3 h4 h5 h6
          refine ⟨_, _, rfl, rfl, rfl, ⟨hsz32, ?_, ?_, ?_, ?_, ?_⟩, ?_⟩
          · intro x hx
            rcases List.mem_append.mp hx with h | h
            exacts [hbl32 x h, hnew32 x h]
          · rw [total_blocks_totalFor, ← hndb]
            exact hT1
          · intro n hn
            simp only [DiskInode.data_blocks] at hn
            rw [← hndb] at hn
            exact hdir' n hn
          · intro hgt
            refine ⟨hind1id', ?_⟩
            intro n h28 hn
            simp only [DiskInode.data_blocks] at hn
            rw [← hndb] at hn
            show readU32 (setBlock d2 (new_blocks.getD (156 - odb) 0) ind2blk
              ino.indirect1) (4 * (n - 28)) = _
            rw [setBlock_ne _ _ _ _ (by
              rw [hind1id', hind2id']
              exact nodup_getD_ne hnodup (by rw [hT1]; exact ind1Pos_lt_totalFor ndb hC)
                (by rw [hT1]; exact ind2Pos_lt_totalFor ndb hD) (by omega))]
            rw [h4 ino.indirect1 (fun a _ ha2 => by
              rw [hsubId a ha2, hind1id']
              exact nodup_getD_ne hnodup (by rw [hT1]; exact ind1Pos_lt_totalFor ndb hC)
                (by rw [hT1]; exact subPos_lt_totalFor a ndb (by rw [numSub_eq]; omega) hD)
                (fun h => subPos_ne_28 a h.symm))]
            rw [setBlock_eq]
            exact hind1ent n h28 hn
          · intro hgt
            refine ⟨hind2id', ?_, ?_⟩
            · intro a ha
              simp only [DiskInode.data_blocks] at ha
              rw [← hndb] at ha
              show readU32 (setBlock d2 (new_blocks.getD (156 - odb) 0) ind2blk
                (new_blocks.getD (156 - odb) 0)) (4 * a) = _
              rw [setBlock_eq, h3 a (by omega) (by rw [numSub_eq] at ha; omega),
                hsubId a (by rw [numSub_eq] at ha; omega)]
            · intro n h156 hn
              simp only [DiskInode.data_blocks] at hn
              rw [← hndb] at hn
              show readU32 (setBlock d2 (new_blocks.getD (156 - odb) 0) ind2blk
                ((bl ++ new_blocks).getD (subPos ((n - 156) / 128)) 0))
                (4 * ((n - 156) % 128)) = _
              rw [setBlock_ne _ _ _ _ (by
                rw [hind2id']
                exact nodup_getD_ne hnodup
                  (by rw [hT1]; exact subPos_lt_totalFor _ ndb (by rw [numSub_eq]; omega) hD)
                  (by rw [hT1]; exact ind2Pos_lt_totalFor ndb hD)
                  (subPos_ne_157 _))]
              rw [← hsubId ((n - 156) / 128) (by omega)]
              rw [h5 (n - 156) (by omega) (by omega)]
              rw [dataIdxAt, mulsIn, getD_drop, hval32]
              exact (hgeneric (blockPos n) _ (by
                rw [blockPos_ge156 n (by omega), totalFor_eval]
                split_ifs <;> omega)).symm
          · intro i hIT
            have hIT' : ¬ ((ndb > 28 ∧ i = (bl ++ new_blocks).getD 28 0) ∨
                (ndb > 156 ∧ (i = (bl ++ new_blocks).getD 157 0 ∨
                  ∃ a, a < numSub ndb ∧ i = (bl ++ new_blocks).getD (subPos a) 0))) := hIT
            show setBlock d2 (new_blocks.getD (156 - odb) 0) ind2blk i = d i
            rw [setBlock_ne _ _ _ _ (by
              rw [hind2id']
              intro he
              exact hIT' (Or.inr ⟨hD, Or.inl he⟩))]
            rw [h4 i (fun a _ ha2 => by
              rw [hsubId a ha2]
              intro he
              exact hIT' (Or.inr ⟨hD, Or.inr ⟨a, by rw [numSub_eq]; omega, he⟩⟩))]
            rw [setBlock_ne _ _ _ _ (by
              rw [hind1id']
              intro he
              exact hIT' (Or.inl ⟨hC, he⟩))]
        · -- odb > 156: the double-indirect level is already entered
          rw [if_neg (show ¬ (odb - 28 + ((ndb - 28) ⊓ 128 - (odb - 28)) = 128) from by
            omega)]
          rw [show ndb - 28 - 128 = ndb - 156 from by omega]
          rw [show odb - 28 + ((ndb - 28) ⊓ 128 - (odb - 28)) - 128 = odb - 156 from by
            omega]
          rw [List.drop_drop]
          rw [show k₁ + ((ndb - 28) ⊓ 128 - (odb - 28)) = 0 from by omega, List.drop_zero]
          obtain ⟨hi2, hi2e, hi2d⟩ := hind2O (by omega)
          have hind2id'' : ino.indirect2 = (bl ++ new_blocks).getD 157 0 := by
            rw [hi2, hglo 157 (by rw [totalFor_eval]; split_ifs <;> omega)]
          have hne21 : ino.indirect2 ≠ ino.indirect1 := by
            rw [hind1id', hind2id'']
            exact nodup_getD_ne hnodup (by rw [hT1]; exact ind2Pos_lt_totalFor ndb hD)
              (by rw [hT1]; exact ind1Pos_lt_totalFor ndb hC) (by omega)
          rw [setBlock_ne d ino.indirect1 ind1blk ino.indirect2 hne21]
          have hsubId : ∀ a, 128 * a < ndb - 156 →
              subIdAt (d ino.indirect2) new_blocks (odb - 156) a =
                (bl ++ new_blocks).getD (subPos a) 0 := by
            intro a ha
            rw [subIdAt]
            by_cases hlt : 128 * a < odb - 156
            · rw [if_pos hlt, hi2e a (by rw [numSub_eq]; omega)]
              exact (hglo _ (subPos_lt_totalFor a odb (by rw [numSub_eq]; omega)
                (by omega))).symm
            · rw [if_neg hlt, mulsIn, hval32]
              exact (hgeneric (subPos a) _ (by
                rw [subPos, totalFor_eval]
                split_ifs <;> omega)).symm
          have hsubId0 : ∀ a, ndb - 156 ≤ 128 * a →
              subIdAt (d ino.indirect2) new_blocks (odb - 156) a = 0 := by
            intro a ha
            rw [subIdAt, if_neg (by omega), mulsIn,
              getD_oob _ _ (by rw [hnlen, totalFor_eval, totalFor_eval]; split_ifs <;> omega),
              Nat.zero_mod]
          have hdist : ∀ a a', a ≤ (ndb - 156) / 128 → a' ≤ (ndb - 156) / 128 → a ≠ a' →
              subIdAt (d ino.indirect2) new_blocks (odb - 156) a ≠
              subIdAt (d ino.indirect2) new_blocks (odb - 156) a' := by
            intro a a' ha ha' hne
            by_cases hin : 128 * a < ndb - 156
            · rw [hsubId a hin]
              by_cases hin' : 128 * a' < ndb - 156
              · rw [hsubId a' hin']
                refine nodup_getD_ne hnodup ?_ ?_ (fun he => hne (subPos_inj _ _ he))
                · rw [hT1]
                  exact subPos_lt_totalFor a ndb (by rw [numSub_eq]; omega) hD
                · rw [hT1]
                  exact subPos_lt_totalFor a' ndb (by rw [numSub_eq]; omega) hD
              · rw [hsubId0 a' (by omega)]
                have := hblpos (subPos a) (subPos_lt_totalFor a ndb
                  (by rw [numSub_eq]; omega) hD)
                omega
            · rw [hsubId0 a (by omega)]
              by_cases hin' : 128 * a' < ndb - 156
              · rw [hsubId a' hin']
                have := hblpos (subPos a') (subPos_lt_totalFor a' ndb
                  (by rw [numSub_eq]; omega) hD)
                omega
              · exact absurd (show a = a' from by omega) hne
          obtain ⟨ind2blk, d2, heq2, h2, h3, h4, h5, h6⟩ :=
            fillIndirect2Loop_spec ((ndb - 156) / 128) ((ndb - 156) % 128) (by omega)
              (128 * ((ndb - 156) / 128) + (ndb - 156) % 128 -
                (128 * ((odb - 156) / 128) + (odb - 156) % 128)) (odb - 156)
              (d ino.indirect2) (setBlock d ino.indirect1 ind1blk) new_blocks
              (by omega)
              (by rw [mulsIn, hnlen, totalFor_eval, totalFor_eval]; split_ifs <;> omega)
              hdist
          rw [heq2]
          simp only [Option.some_bind, Option.pure_def]
          have hTT : 128 * ((ndb - 156) / 128) + (ndb - 156) % 128 = ndb - 156 := by omega
          simp only [hTT] at h2 h3 h4 h5 h6
          refine ⟨_, _, rfl, rfl, rfl, ⟨hsz32, ?_, ?_, ?_, ?_, ?_⟩, ?_⟩
          · intro x hx
            rcases List.mem_append.mp hx with h | h
            exacts [hbl32 x h, hnew32 x h]
          · rw [total_blocks_totalFor, ← hndb]
            exact hT1
          · intro n hn
            simp only [DiskInode.data_blocks] at hn
            rw [← hndb] at hn
            exact hdir' n hn
          · intro hgt
            refine ⟨hind1id', ?_⟩
            intro n h28 hn
            simp only [DiskInode.data_blocks] at hn
            rw [← hndb] at hn
            show readU32 (setBlock d2 ino.indirect2 ind2blk ino.indirect1)
              (4 * (n - 28)) = _
            rw [setBlock_ne _ _ _ _ (fun he => hne21 he.symm)]
            rw [h4 ino.indirect1 (fun a ha1 ha2 => by
              rw [hsubId a ha2, hind1id']
              exact nodup_getD_ne hnodup (by rw [hT1]; exact ind1Pos_lt_totalFor ndb hC)
                (by rw [hT1]; exact subPos_lt_totalFor a ndb (by rw [numSub_eq]; omega) hD)
                (fun h => subPos_ne_28 a h.symm))]
            rw [setBlock_eq]
            exact hind1ent n h28 hn
          · intro hgt
            refine ⟨hind2id'', ?_, ?_⟩
            · intro a ha
              simp only [DiskInode.data_blocks] at ha
              rw [← hndb] at ha
              show readU32 (setBlock d2 ino.indirect2 ind2blk ino.indirect2) (4 * a) = _
              rw [setBlock_eq]
              by_cases hfresh : odb - 156 ≤ 128 * a
              · rw [h3 a hfresh (by rw [numSub_eq] at ha; omega),
                  hsubId a (by rw [numSub_eq] at ha; omega)]
              · rw [readU32_eq_of_bytes (d ino.indirect2) ind2blk (4 * a)
                  (fun i hi1 hi2 => h2 i (fun a2 ha21 ha22 => by omega))]
                rw [hi2e a (by rw [numSub_eq]; omega)]
                exact (hglo _ (subPos_lt_totalFor a odb (by rw [numSub_eq]; omega)
                  (by omega))).symm
            · intro n h156 hn
              simp only [DiskInode.data_blocks] at hn
              rw [← hndb] at hn
              show readU32 (setBlock d2 ino.indirect2 ind2blk
                ((bl ++ new_blocks).getD (subPos ((n - 156) / 128)) 0))
                (4 * ((n - 156) % 128)) = _
              rw [setBlock_ne _ _ _ _ (by
                rw [hind2id'']
                exact nodup_getD_ne hnodup
                  (by rw [hT1]; exact subPos_lt_totalFor _ ndb (by rw [numSub_eq]; omega) hD)
                  (by rw [hT1]; exact ind2Pos_lt_totalFor ndb hD)
                  (subPos_ne_157 _))]
              by_cases hnew : odb - 156 ≤ n - 156
              · rw [← hsubId ((n - 156) / 128) (by omega)]
                rw [h5 (n - 156) (by omega) (by omega)]
                rw [dataIdxAt, mulsIn, hval32]
                exact (hgeneric (blockPos n) _ (by
                  rw [blockPos_ge156 n (by omega), totalFor_eval]
                  split_ifs <;> omega)).symm
              · have hn_old : n < odb := by omega
                by_cases hsame : (n - 156) / 128 = (odb - 156) / 128
                · -- old entry of the current, partially filled level
                  have hm0 : (n - 156) % 128 < (odb - 156) % 128 := by omega
                  have hsid_n : subIdAt (d ino.indirect2) new_blocks (odb - 156)
                      ((n - 156) / 128) =
                      (bl ++ new_blocks).getD (subPos ((n - 156) / 128)) 0 := by
                    rw [subIdAt, if_pos (by omega),
                      hi2e _ (by rw [numSub_eq]; omega)]
                    exact (hglo _ (subPos_lt_totalFor _ odb (by rw [numSub_eq]; omega)
                      (by omega))).symm
                  rw [← hsid_n]
                  rw [← hsame] at h6
                  rw [readU32_eq_of_bytes
                    (setBlock d ino.indirect1 ind1blk
                      (subIdAt (d ino.indirect2) new_blocks (odb - 156) ((n - 156) / 128)))
                    (d2 (subIdAt (d ino.indirect2) new_blocks (odb - 156) ((n - 156) / 128)))
                    (4 * ((n - 156) % 128))
                    (fun i hi1 hi2 => h6 i (by omega))]
                  rw [hsid_n]
                  rw [setBlock_ne _ _ _ _ (by
                    rw [hind1id']
                    exact nodup_getD_ne hnodup
                      (by rw [hT1]
                          exact subPos_lt_totalFor _ ndb (by rw [numSub_eq]; omega) hD)
                      (by rw [hT1]; exact ind1Pos_lt_totalFor ndb hC)
                      (subPos_ne_28 _))]
                  rw [hglo _ (subPos_lt_totalFor _ odb (by rw [numSub_eq]; omega)
                    (by omega))]
                  rw [hglo _ (blockPos_lt_totalFor n odb hn_old)]
                  exact hi2d n h156 hn_old
                · -- old entry of a fully old level: its block is untouched
                  rw [h4 ((bl ++ new_blocks).getD (subPos ((n - 156) / 128)) 0)
                    (fun a ha1 ha2 => by
                      rw [hsubId a ha2]
                      exact nodup_getD_ne hnodup
                        (by rw [hT1]
                            exact subPos_lt_totalFor _ ndb (by rw [numSub_eq]; omega) hD)
                        (by rw [hT1]
                            exact subPos_lt_totalFor a ndb (by rw [numSub_eq]; omega) hD)
                        (fun he => absurd (subPos_inj _ _ he) (by omega)))]
                  rw [setBlock_ne _ _ _ _ (by
                    rw [hind1id']
                    exact nodup_getD_ne hnodup
                      (by rw [hT1]
                          exact subPos_lt_totalFor _ ndb (by rw [numSub_eq]; omega) hD)
                      (by rw [hT1]; exact ind1Pos_lt_totalFor ndb hC)
                      (subPos_ne_28 _))]
                  rw [hglo _ (subPos_lt_totalFor _ odb (by rw [numSub_eq]; omega)
                    (by omega))]
                  rw [hglo _ (blockPos_lt_totalFor n odb hn_old)]
                  exact hi2d n h156 hn_old
          · intro i hIT
            have hIT' : ¬ ((ndb > 28 ∧ i = (bl ++ new_blocks).getD 28 0) ∨
                (ndb > 156 ∧ (i = (bl ++ new_blocks).getD 157 0 ∨
                  ∃ a, a < numSub ndb ∧ i = (bl ++ new_blocks).getD (subPos a) 0))) := hIT
            show setBlock d2 ino.indirect2 ind2blk i = d i
            rw [setBlock_ne _ _ _ _ (by
              rw [hind2id'']
              intro he
              exact hIT' (Or.inr ⟨hD, Or.inl he⟩))]
            rw [h4 i (fun a ha1 ha2 => by
              rw [hsubId a ha2]
              intro he
              exact hIT' (Or.inr ⟨hD, Or.inr ⟨a, by rw [numSub_eq]; omega, he⟩⟩))]
            rw [setBlock_ne _ _ _ _ (by
              rw [hind1id']
              intro he
              exact hIT' (Or.inl ⟨hC, he⟩))]
      · -- case B1 with a pre-existing indirect1 block
        rw [if_neg (show ¬ (ndb - 28 > 128) from by omega)]
        refine ⟨_, _, rfl, rfl, rfl, ⟨hsz32, ?_, ?_, ?_, ?_, ?_⟩, ?_⟩
        · intro x hx
          rcases List.mem_append.mp hx with h | h
          exacts [hbl32 x h, hnew32 x h]
        · rw [total_blocks_totalFor, ← hndb]
          exact hT1
        · intro n hn
          simp only [DiskInode.data_blocks] at hn
          rw [← hndb] at hn
          exact hdir' n hn
        · intro hgt
          refine ⟨hind1id', ?_⟩
          intro n h28 hn
          simp only [DiskInode.data_blocks] at hn
          rw [← hndb] at hn
          show readU32 (setBlock d ino.indirect1 ind1blk ino.indirect1) (4 * (n - 28)) = _
          rw [setBlock_eq]
          exact hind1ent n h28 hn
        · intro hgt
          simp only [DiskInode.data_blocks] at hgt
          rw [← hndb] at hgt
          exact absurd hgt (by omega)
        · intro i hIT
          have hIT' : ¬ ((ndb > 28 ∧ i = (bl ++ new_blocks).getD 28 0) ∨
              (ndb > 156 ∧ (i = (bl ++ new_blocks).getD 157 0 ∨
                ∃ a, a < numSub ndb ∧ i = (bl ++ new_blocks).getD (subPos a) 0))) := hIT
          exact setBlock_ne _ _ _ _ (by
            rw [hind1id']
            intro he
            exact hIT' (Or.inl ⟨hC, he⟩))
  · -- case A: everything fits in the direct slots
    rw [if_neg hC]
    refine ⟨_, _, rfl, rfl, rfl, ?_, fun i _ => rfl⟩
    refine ⟨hsz32, ?_, ?_, ?_, ?_, ?_⟩
    · intro x hx
      rcases List.mem_append.mp hx with h | h
      exacts [hbl32 x h, hnew32 x h]
    · rw [total_blocks_totalFor]
      rw [← hndb]
      exact hT1
    · intro n hn
      simp only [DiskInode.data_blocks] at hn
      rw [← hndb] at hn
      exact hdir' n hn
    · intro hgt
      simp only [DiskInode.data_blocks] at hgt
      rw [← hndb] at hgt
      exact absurd hgt hC
    · intro hgt
      simp only [DiskInode.data_blocks] at hgt
      rw [← hndb] at hgt
      exact absurd hgt (by omega)
